import Mathlib

/-!
Verification development for the elm-graphql translation core.

The TypeScript sources embedded here:
  * `src/src/query-to-elm.ts`   — namespace `QueryToElm`
  * `src/unnamed/part_001` (query-to-decoder.ts) — namespace `QueryToDecoder`

The embedding is shallow: GraphQL schema types become the inductive `GType`,
the Elm target-type AST (from the external `elm-ast` module) becomes `ElmType`
and `ElmDecl`, and each TypeScript function becomes a Lean function of the
same name.  Thrown JavaScript exceptions become `Except Err` errors.  The
stateful `TypeInfo` tracker (an external graphql-js capability) is replaced
by explicitly threading the schema type currently in scope, resolving fields
with `fieldTypeIn` exactly as `TypeInfo.enter`/`getType` would.

Recursions that in TypeScript run through the mutable fragment-definition
map (and hence terminate only because validated GraphQL documents have no
fragment cycles) take an explicit fuel parameter; fuel exhaustion is the
distinguished error `Err.fuel`.
-/

set_option autoImplicit false

namespace ElmGraphQL

/-- Translation-time failure: either a thrown exception's message, or fuel
exhaustion of the embedding (TypeScript would diverge there). -/
inductive Err where
  | fuel
  | msg (s : String)
  deriving DecidableEq, Repr

/-- Embedding: `true` iff an `Except` computation succeeded. -/
def exceptOk {α : Type} : Except Err α → Bool
  | .ok _ => true
  | .error _ => false

/-- GraphQL schema types, mirroring the closed graphql-js hierarchy used by
the sources: GraphQLScalarType, GraphQLEnumType, GraphQLObjectType,
GraphQLInterfaceType, GraphQLInputObjectType, GraphQLList, GraphQLNonNull,
GraphQLUnionType.  Object-like types carry their field map as an ordered
association list (graphql-js `getFields()` iteration order); union member
types are identified by name.  The embedding represents a schema as a finite
tree, so the self-referential schemas that `collectEnumsForType` guards
against cannot be expressed, but the guard itself is embedded faithfully. -/
inductive GType where
  | scalar (name : String)
  | enum (name : String) (values : List String)
  | object (name : String) (fields : List (String × GType))
  | interface (name : String) (fields : List (String × GType))
  | inputObject (name : String) (fields : List (String × GType))
  | list (ofType : GType)
  | nonNull (ofType : GType)
  | union (name : String) (members : List String)

/-- The `type.constructor.name` string used in thrown error messages. -/
def tsCtorName : GType → String
  | .scalar _ => "GraphQLScalarType"
  | .enum _ _ => "GraphQLEnumType"
  | .object _ _ => "GraphQLObjectType"
  | .interface _ _ => "GraphQLInterfaceType"
  | .inputObject _ _ => "GraphQLInputObjectType"
  | .list _ => "GraphQLList"
  | .nonNull _ => "GraphQLNonNull"
  | .union _ _ => "GraphQLUnionType"

/-- Embedding: `type instanceof GraphQLNonNull`. -/
def GType.isNonNull : GType → Bool
  | .nonNull _ => true
  | _ => false

/-- Embedding: `type instanceof GraphQLList`. -/
def GType.isList : GType → Bool
  | .list _ => true
  | _ => false

/-- Embedding: `type instanceof GraphQLUnionType`. -/
def GType.isUnion : GType → Bool
  | .union _ _ => true
  | _ => false

/-- The Elm type AST from the external `elm-ast` module: `ElmTypeName`,
`ElmTypeApp`, `ElmTypeRecord` (fields with an optional extension variable). -/
inductive ElmType where
  | name (n : String)
  | app (n : String) (args : List ElmType)
  | record (fields : List (String × ElmType)) (ext : Option String)

/-- Elm declarations from the external `elm-ast` module: `ElmTypeDecl`
(union type with constructor strings), `ElmTypeAliasDecl`, and
`ElmFunctionDecl` (parameters, return type, body expression text). -/
inductive ElmDecl where
  | typeDecl (name : String) (constructors : List String)
  | typeAliasDecl (name : String) (ty : ElmType) (typeParams : List String)
  | functionDecl (name : String) (parameters : List (String × ElmType))
      (returnType : ElmType) (body : String)

/-- The name a declaration introduces (for stating placement facts). -/
def declName : ElmDecl → String
  | .typeDecl n _ => n
  | .typeAliasDecl n _ _ => n
  | .functionDecl n _ _ _ => n

/-- Embedding: `name[0].toUpperCase() + name.substr(1)` (total: empty string maps to
itself, where TypeScript would read `undefined[0]`). -/
def upperFirst (s : String) : String :=
  match s.data with
  | [] => s
  | c :: cs => ⟨c.toUpper :: cs⟩

/-- Embedding: `name[0].toLowerCase() + name.substr(1)`. -/
def lowerFirst (s : String) : String :=
  match s.data with
  | [] => s
  | c :: cs => ⟨c.toLower :: cs⟩

/-- Embedding: `name.toLowerCase()`, computed over the character list so that it
reduces definitionally. -/
def strToLower (s : String) : String :=
  ⟨s.data.map Char.toLower⟩

/-- Embedding: `v.name[0].toUpperCase() + v.name.substr(1).toLowerCase()` — the casing
applied to enum value names when forming Elm constructor names. -/
def ctorCase (s : String) : String :=
  match s.data with
  | [] => s
  | c :: cs => ⟨c.toUpper :: cs.map Char.toLower⟩

theorem length_dropWhile_le' {α : Type} (p : α → Bool) (l : List α) :
    (l.dropWhile p).length ≤ l.length := by
  induction l with
  | nil => simp [List.dropWhile]
  | cons c cs ih =>
    simp only [List.dropWhile]
    split
    · exact Nat.le_succ_of_le ih
    · simp

/-- Embedding: `query.replace(/\s+/g, ' ')`: collapse every run of whitespace into a
single space. -/
def collapseWsAux : List Char → List Char
  | [] => []
  | c :: cs =>
    if c.isWhitespace then ' ' :: collapseWsAux (cs.dropWhile Char.isWhitespace)
    else c :: collapseWsAux cs
termination_by l => l.length
decreasing_by
  · simp only [List.length_cons]
    exact Nat.lt_succ_of_le (length_dropWhile_le' _ _)
  · simp

/-- String form of the whitespace collapse. -/
def collapseWs (s : String) : String := ⟨collapseWsAux s.data⟩

/-- A GraphQL query-document selection, as parsed by graphql/language:
a field (with optional alias and optional nested selection set — a leaf
field has none), a fragment spread, or an inline fragment. Field arguments
and directives are carried by the real AST but never used by the
translation, so they are omitted here. -/
inductive Selection where
  | field (name : String) (al : Option String)
      (selectionSet : Option (List Selection))
  | fragmentSpread (name : String)
  | inlineFragment (typeCondition : String)
      (selectionSet : List Selection)

/-- A variable definition of an operation.  The real AST stores a syntactic
type node resolved via `typeFromAST(schema, varDef.type)`; the embedding
stores the resolved schema type directly.  `hasDefault` is
`varDef.defaultValue != null`. -/
structure VariableDefinition where
  name : String
  type : GType
  hasDefault : Bool

/-- An `OperationDefinition` node: `operation` is the literal operation kind
string ("query", "mutation", ...), `name` is optional. -/
structure OperationDefinition where
  operation : String
  name : Option String
  variableDefinitions : List VariableDefinition
  selectionSet : List Selection

/-- A `FragmentDefinition` node. -/
structure FragmentDefinition where
  name : String
  typeCondition : String
  selectionSet : List Selection

/-- A top-level definition of a document. -/
inductive Definition where
  | op (o : OperationDefinition)
  | frag (f : FragmentDefinition)

/-- A parsed document: its ordered top-level definitions. -/
abbrev Document := List Definition

/-- Embedding: `FragmentDefinitionMap`: name → fragment definition, insertion ordered. -/
abbrev FragmentDefinitionMap := List (String × FragmentDefinition)

/-- Embedding: `GraphQLEnumMap`: name → enum (represented by its value names),
insertion ordered. -/
abbrev GraphQLEnumMap := List (String × List String)

/-- Embedding: `GraphQLUnionMap`: name → union (represented by its member type names),
insertion ordered. -/
abbrev GraphQLUnionMap := List (String × List String)

/-- The selection set of a top-level definition. -/
def Definition.selections : Definition → List Selection
  | .op o => o.selectionSet
  | .frag f => f.selectionSet

/-- The schema: root operation types plus the type map used to resolve
fragment/inline-fragment type conditions (graphql-js `TypeInfo` does this
through `schema.getType(name)`). -/
structure GraphQLSchema where
  queryType : Option GType
  mutationType : Option GType
  typeMap : List (String × GType)

/-- Insert into an insertion-ordered string-keyed map with JavaScript
`obj[k] = v` semantics: an existing key keeps its position (its value is
overwritten), a new key is appended. -/
def insertSeen {α : Type} (m : List (String × α)) (k : String) (v : α) :
    List (String × α) :=
  if m.any (fun p => p.1 == k) then
    m.map (fun p => if p.1 == k then (k, v) else p)
  else m ++ [(k, v)]

/-- Append a name if not already present (`if (xs.indexOf(n) == -1) push`). -/
def addSeenName (l : List String) (n : String) : List String :=
  if l.contains n then l else l ++ [n]

/-- Strip every `NonNull`/`List` wrapper — graphql-js `getNamedType`, used
by `TypeInfo` when it resolves a field against the enclosing type. -/
def unwrapAll : GType → GType
  | .nonNull t => unwrapAll t
  | .list t => unwrapAll t
  | t => t

/-- The declared fields of an (unwrapped) composite type. -/
def compositeFields : GType → Option (List (String × GType))
  | .object _ fs => some fs
  | .interface _ fs => some fs
  | .inputObject _ fs => some fs
  | _ => none

/-- What `TypeInfo.getType()` reports after entering field `name` whose
enclosing scope has type `t`: the field's declared type, or `String!` for
the meta field `__typename`, or `none` when the field does not resolve
(TypeScript's `undefined`). -/
def fieldTypeIn (t : GType) (name : String) : Option GType :=
  if name == "__typename" then some (.nonNull (.scalar "String"))
  else
    match compositeFields (unwrapAll t) with
    | some fs => fs.lookup name
    | none => none

/-- The three-step unwrapping `NonNull → List → NonNull` that query-to-elm.ts
performs before testing for a union (`walkSelectionSet`, `walkUnion`,
`collectUnions` all repeat it). -/
def unwrap3 (t : GType) : GType :=
  let t1 := match t with | .nonNull u => u | _ => t
  let t2 := match t1 with | .list u => u | _ => t1
  match t2 with | .nonNull u => u | _ => t2

namespace QueryToElm

/-- Embedding: `elmSafeName` from query-to-elm.ts: remaps GraphQL identifiers that
collide with generated-module keywords. -/
def elmSafeName (graphQlName : String) : String :=
  if graphQlName == "__typename" then "typename_"
  else if graphQlName == "type" then "type_"
  else if graphQlName == "Task" then "Task_"
  else if graphQlName == "List" then "List_"
  else if graphQlName == "Http" then "Http_"
  else if graphQlName == "GraphQL" then "GraphQL_"
  else graphQlName

mutual

/-- Embedding: `typeToElm` from query-to-elm.ts: map a schema type to an Elm type.
The final `Maybe` wrap is applied only when `isNonNull` is false and the
input type is neither a list nor a non-null wrapper. -/
def typeToElm (type : GType) (isNonNull : Bool) : Except Err ElmType :=
  match type with
  | .nonNull ofType => typeToElm ofType true
  | .scalar n =>
    let elmType : ElmType :=
      if n == "Int" then .name "Int"
      else if n == "Float" then .name "Float"
      else if n == "Boolean" then .name "Bool"
      else if n == "ID" then .name "String"
      else if n == "DateTime" then .name "String"
      else if n == "String" then .name "String"
      else .name "String"
    .ok (if isNonNull then elmType else .app "Maybe" [elmType])
  | .enum n _ =>
    let elmType : ElmType := .name (upperFirst n)
    .ok (if isNonNull then elmType else .app "Maybe" [elmType])
  | .list ofType => do
    let inner ← typeToElm ofType true
    .ok (.app "List" [inner])
  | .object _ fields | .interface _ fields | .inputObject _ fields => do
    let elmFields ← typeToElmFields fields
    let elmType : ElmType := .record elmFields none
    .ok (if isNonNull then elmType else .app "Maybe" [elmType])
  | .union _ _ => .error (.msg ("Unexpected: " ++ tsCtorName type))

/-- The field loop of `typeToElm`'s object/interface/input-object case. -/
def typeToElmFields (fields : List (String × GType)) :
    Except Err (List (String × ElmType)) :=
  match fields with
  | [] => .ok []
  | (fieldName, fieldType) :: rest => do
    let ty ← typeToElm fieldType false
    let tys ← typeToElmFields rest
    .ok ((elmSafeName fieldName, ty) :: tys)

end

mutual

/-- The kind dispatch of `encoderForInputType` (query-to-elm.ts), applied
after its single `GraphQLNonNull` unwrap; `value` is the variable path the
produced encoder is applied to.  `path` is optional in TypeScript; where an
`undefined` path is concatenated into produced code it yields the literal
text "undefined", modelled with `Option.getD "undefined"`.  The recursive
calls that TypeScript makes through `encoderForInputType` (list elements
with path `x`, object fields with the extended value path) are inlined
here — `encoderForInputType_list` and `encoderForInputType_fields` below
prove the inlining matches the wrapper — so that the recursion is
structural. -/
def encoderSwitch (type : GType) (value : Option String) : Except Err String :=
  match type with
  | .inputObject _ fields => do
    let fieldEncoders ← encoderFields fields (value.getD "undefined")
    .ok ("(Json.Encode.object [" ++ String.intercalate ", " fieldEncoders ++ "])")
  | .list ofType => do
    let inner ← match ofType with
      | .nonNull inner2 => encoderSwitch inner2 (some "x")
      | t => (encoderSwitch t (some "o")).map (fun e =>
          "(maybeEncode (\\o -> " ++ e ++ ") " ++ "x" ++ ")")
    .ok ("(Json.Encode.list (List.map (\\x -> " ++ inner ++ ") " ++
      value.getD "undefined" ++ "))")
  | .scalar n =>
    let v := value.getD "undefined"
    if n == "Int" then .ok ("Json.Encode.int " ++ v)
    else if n == "Float" then .ok ("Json.Encode.float " ++ v)
    else if n == "Boolean" then .ok ("Json.Encode.bool " ++ v)
    else if n == "ID" then .ok ("Json.Encode.string " ++ v)
    else if n == "DateTime" then .ok ("Json.Encode.string " ++ v)
    else if n == "String" then .ok ("Json.Encode.string " ++ v)
    else .ok ("Json.Encode.string " ++ v)
  | .enum n values =>
    let tuples := values.map (fun v =>
      "(\"" ++ n ++ "_" ++ ctorCase v ++ "\", \"" ++ v ++ "\")")
    let mp := "[" ++ String.intercalate "," tuples ++ "]"
    .ok ("Json.Encode.string <| Maybe.withDefault \"\" <| Maybe.map Tuple.second <| List.head <| (\\s -> List.filter (Tuple.first >> (==)(s)) "
      ++ mp ++ " ) <| toString " ++ value.getD "undefined")
  | _ => .error (.msg ("not implemented: " ++ tsCtorName type))

/-- The field loop of the input-object case: one
`("name", encoderForInputType(fieldType, false, value.name))` entry per
declared field, with the nullable wrapper inlined as in `encoderSwitch`. -/
def encoderFields (fields : List (String × GType)) (value : String) :
    Except Err (List String) :=
  match fields with
  | [] => .ok []
  | (name, ftype) :: rest => do
    let valuePath := value ++ "." ++ name
    let e ← match ftype with
      | .nonNull inner => encoderSwitch inner (some valuePath)
      | t => (encoderSwitch t (some "o")).map (fun e2 =>
          "(maybeEncode (\\o -> " ++ e2 ++ ") " ++ valuePath ++ ")")
    let es ← encoderFields rest value
    .ok (("(\"" ++ name ++ "\", " ++ e ++ ")") :: es)

end

/-- Embedding: `encoderForInputType` from query-to-elm.ts.  The TypeScript signature
takes `(type, isNonNull?, path?)`; the `isNonNull` flag is accepted but
never read.  A `NonNull` type dispatches directly; a nullable type wraps
its encoder in `maybeEncode` applied to the original `path`. -/
def encoderForInputType (type : GType) (_isNonNull : Bool)
    (path : Option String) : Except Err String :=
  match type with
  | .nonNull ofType => encoderSwitch ofType path
  | t => (encoderSwitch t (some "o")).map (fun e =>
      "(maybeEncode (\\o -> " ++ e ++ ") " ++ path.getD "undefined" ++ ")")

/-- The lowercase alphabet used to name the type parameters of generated
union types (query-to-elm.ts top-level constant). -/
def alphabet : List String :=
  ["a", "b", "c", "d", "e", "f", "g", "h", "i", "j", "k", "l", "m",
   "n", "o", "p", "q", "r", "s", "t", "u", "v", "w", "x", "y", "z"]

/-- Embedding: `walkEnum`: the Elm type declaration for a seen enum (given its name
and wire value names). -/
def walkEnum (name : String) (values : List String) : ElmDecl :=
  .typeDecl name (values.map (fun v => name ++ "_" ++ ctorCase v))

/-- Embedding: `decoderForEnum`: the Elm decoder function declaration for a seen enum. -/
def decoderForEnum (name : String) (values : List String) : ElmDecl :=
  let decoderTypeName := upperFirst name
  .functionDecl (strToLower name ++ "Decoder") []
    (.name ("Decoder " ++ decoderTypeName))
    ("string |> andThen (\\s ->\n" ++
     "        case s of\n" ++
     String.intercalate "\n" (values.map (fun v =>
       "            \"" ++ v ++ "\" -> succeed " ++ decoderTypeName ++ "_" ++ ctorCase v)) ++
     "\n" ++
     "            _ -> fail \"Unknown " ++ name ++ "\")")

/-- Embedding: `walkUnion` from query-to-elm.ts: the Elm type declaration for a seen
union — one type parameter letter per member type.  (The function's
defensive NonNull/List unwrapping never fires on entries of the seen-union
map, which are always bare union types.) -/
def walkUnion (name : String) (members : List String) : List ElmDecl :=
  let params := String.intercalate " "
    (members.enum.map (fun p => alphabet.getD p.1 "undefined"))
  [ElmDecl.typeDecl (name ++ " " ++ params)
    (members.enum.map (fun p =>
      elmSafeName (name ++ "_" ++ p.2) ++ " " ++ alphabet.getD p.1 "undefined"))]

mutual

/-- Embedding: `walkSelectionSet` from query-to-elm.ts: walk a selection set against
the scope type `TypeInfo` currently reports, producing field declarations,
spread names, and — when the (NonNull/List/NonNull-unwrapped) scope is a
union — the union's applied Elm type. -/
def walkSelectionSet (sch : GraphQLSchema) (fmap : FragmentDefinitionMap) :
    Nat → GType → List Selection →
    Except Err (List (String × ElmType) × List String × Option ElmType)
  | 0, _, _ => .error .fuel
  | fuel + 1, scope, sels =>
    if (unwrap3 scope).isUnion then do
      let ty ← walkUnionSelectionSet sch fmap fuel scope sels
      .ok ([], [], some ty)
    else do
      let (fields, spreads) ← walkSelections sch fmap fuel scope sels
      .ok (fields, spreads, none)

/-- The selection loop of `walkSelectionSet`'s non-union branch: fields are
walked, fragment spreads only record their name, and an inline fragment
throws `not implemented`. -/
def walkSelections (sch : GraphQLSchema) (fmap : FragmentDefinitionMap) :
    Nat → GType → List Selection →
    Except Err (List (String × ElmType) × List String)
  | 0, _, _ => .error .fuel
  | _ + 1, _, [] => .ok ([], [])
  | fuel + 1, scope, sel :: rest =>
    match sel with
    | .field nm al oss => do
      let f ← walkField sch fmap fuel scope nm al oss
      let (fs, sps) ← walkSelections sch fmap fuel scope rest
      .ok (f :: fs, sps)
    | .fragmentSpread nm => do
      let (fs, sps) ← walkSelections sch fmap fuel scope rest
      .ok (fs, nm :: sps)
    | .inlineFragment cond _ =>
      .error (.msg ("not implemented: InlineFragment on " ++ cond))

/-- Embedding: `walkField` from query-to-elm.ts.  (When a field with a nested
selection set does not resolve in the scope, TypeScript continues with an
undefined `TypeInfo` type and fails on the first leaf inside; the embedding
raises the same `Unknown GraphQL field` error at the field itself.) -/
def walkField (sch : GraphQLSchema) (fmap : FragmentDefinitionMap) :
    Nat → GType → String → Option String → Option (List Selection) →
    Except Err (String × ElmType)
  | 0, _, _, _, _ => .error .fuel
  | fuel + 1, scope, fname, al, oss =>
    let name := match al with
      | some a => elmSafeName a
      | none => elmSafeName fname
    match fieldTypeIn scope fname with
    | none => .error (.msg ("Unknown GraphQL field: " ++ fname))
    | some ftype =>
      match oss with
      | some sels => do
        let (isMaybe, t1) := match ftype with
          | .nonNull u => (false, u)
          | t => (true, t)
        let isList := t1.isList
        let (fields, spreads, uni) ← walkSelectionSet sch fmap fuel ftype sels
        let type0 : ElmType := match uni with
          | some u => u
          | none => .record fields none
        let type1 := spreads.foldl
          (fun ty sp => ElmType.app (upperFirst sp ++ "_") [ty]) type0
        let type2 := if isList then ElmType.app "List" [type1] else type1
        let type3 := if isMaybe then ElmType.app "Maybe" [type2] else type2
        .ok (name, type3)
      | none => do
        let ty ← typeToElm ftype false
        .ok (name, ty)

/-- Embedding: `walkUnionSelectionSet` from query-to-elm.ts: build the applied union
type from the inline fragments / fragment spreads of the selection, then
require the `__typename` discriminator to have been selected. -/
def walkUnionSelectionSet (sch : GraphQLSchema) (fmap : FragmentDefinitionMap) :
    Nat → GType → List Selection → Except Err ElmType
  | 0, _, _ => .error .fuel
  | fuel + 1, scope, sels => do
    let unionName := match unwrap3 scope with
      | .union n _ => n
      | _ => "undefined"
    let (typeMap, hasTypename) ← walkUnionSels sch fmap fuel sels [] false
    if hasTypename then
      .ok (.app unionName (typeMap.map Prod.snd))
    else
      .error (.msg ("must query field \x27__typename\x27 on union types (missing for \x27"
        ++ unionName ++ "\x27)"))

/-- The selection loop of `walkUnionSelectionSet`: accumulates the
insertion-ordered branch type map and the `hasTypename` flag.  (A type
condition or fragment name that does not resolve makes TypeScript fail
later inside the branch walk; the embedding reports it at the branch.) -/
def walkUnionSels (sch : GraphQLSchema) (fmap : FragmentDefinitionMap) :
    Nat → List Selection → List (String × ElmType) → Bool →
    Except Err (List (String × ElmType) × Bool)
  | 0, _, _, _ => .error .fuel
  | _ + 1, [], typeMap, ht => .ok (typeMap, ht)
  | fuel + 1, sel :: rest, typeMap, ht =>
    match sel with
    | .field nm _ _ =>
      walkUnionSels sch fmap fuel rest typeMap (ht || nm == "__typename")
    | .inlineFragment cond body =>
      match sch.typeMap.lookup cond with
      | none => .error (.msg ("Unknown type: " ++ cond))
      | some condType => do
        let (fields, spreads, _) ← walkSelectionSet sch fmap fuel condType body
        let type0 := ElmType.record fields none
        let type1 := spreads.foldl
          (fun ty sp => ElmType.app (upperFirst sp ++ "_") [ty]) type0
        walkUnionSels sch fmap fuel rest (insertSeen typeMap cond type1) ht
    | .fragmentSpread nm =>
      match fmap.lookup nm with
      | none => .error (.msg ("TypeError: fragment not defined: " ++ nm))
      | some fd =>
        match sch.typeMap.lookup fd.typeCondition with
        | none => .error (.msg ("Unknown type: " ++ fd.typeCondition))
        | some condType => do
          let (fields, spreads, _) ←
            walkSelectionSet sch fmap fuel condType fd.selectionSet
          let type0 := ElmType.record fields none
          let type1 := spreads.foldl
            (fun ty sp => ElmType.app (upperFirst sp ++ "_") [ty]) type0
          walkUnionSels sch fmap fuel rest (insertSeen typeMap nm type1) ht

end

end QueryToElm

namespace QueryToDecoder

/-- Embedding: `leafTypeToDecoder` from query-to-decoder.ts: the Elm decoder text for a
leaf (scalar or enum) type, after unwrapping one NonNull layer. -/
def leafTypeToDecoder (type : GType) : Except Err String :=
  let type := match type with
    | .nonNull ofType => ofType
    | t => t
  match type with
  | .scalar n =>
    if n == "Int" then .ok "int"
    else if n == "Float" then .ok "float"
    else if n == "Boolean" then .ok "bool"
    else if n == "ID" then .ok "string"
    else if n == "DateTime" then .ok "string"
    else if n == "String" then .ok "string"
    else .ok "string"
  | .enum n _ => .ok (strToLower n ++ "Decoder")
  | .object n _ | .interface n _ | .inputObject n _ =>
    .error (.msg ("not a leaf type: " ++ n))
  | .union n _ => .error (.msg ("not a leaf type: " ++ n))
  | t => .error (.msg ("not a leaf type: " ++ tsCtorName t))

mutual

/-- Embedding: `getSelectionSetFields` from query-to-decoder.ts: the deduplicated,
`elmSafeName`-sanitized field-name list of a selection set, with fragment
spreads expanded through the fragment-definition map. -/
def getSelectionSetFields (fmap : FragmentDefinitionMap) :
    Nat → List Selection → Except Err (List String)
  | 0, _ => .error .fuel
  | fuel + 1, sels => getSelectionSetFieldsGo fmap fuel sels []

/-- The selection loop of `getSelectionSetFields`, threading the local
`fields` accumulator. -/
def getSelectionSetFieldsGo (fmap : FragmentDefinitionMap) :
    Nat → List Selection → List String → Except Err (List String)
  | 0, _, _ => .error .fuel
  | _ + 1, [], fields => .ok fields
  | fuel + 1, sel :: rest, fields =>
    match sel with
    | .field nm al _ =>
      let name := match al with
        | some a => QueryToElm.elmSafeName a
        | none => QueryToElm.elmSafeName nm
      getSelectionSetFieldsGo fmap fuel rest (addSeenName fields name)
    | .fragmentSpread nm =>
      match fmap.lookup nm with
      | none => .error (.msg ("TypeError: fragment not defined: " ++ nm))
      | some fd => do
        let sub ← getSelectionSetFields fmap fuel fd.selectionSet
        getSelectionSetFieldsGo fmap fuel rest (sub.foldl addSeenName fields)
    | .inlineFragment _ _ => .error (.msg "Should not happen")

end

/-- The record-building lambda text
`(\f1 f2 -> { f1 = f1, f2 = f2 })` used by the decoder generator. -/
def recordShape (fieldNames : List String) : String :=
  "(\\" ++ String.intercalate " " fieldNames ++ " -> \x7b " ++
    String.intercalate ", " (fieldNames.map (fun f => f ++ " = " ++ f)) ++ " \x7d)"

/-- The variant-building lambda text
`(\f1 -> Ctor { f1 = f1 })` used by the union decoder generator. -/
def ctorShape (ctor : String) (fieldNames : List String) : String :=
  "(\\" ++ String.intercalate " " fieldNames ++ " -> " ++ ctor ++ " \x7b " ++
    String.intercalate ", " (fieldNames.map (fun f => f ++ " = " ++ f)) ++ " \x7d)"

/-- Embedding: `walkUnion`'s `isMaybe` flag: true unless the field type is `NonNull`. -/
def decoderIsMaybe (t : GType) : Bool :=
  match t with
  | .nonNull _ => false
  | _ => true

/-- Embedding: `walkUnion`'s `prefix` string: "list " when the (NonNull-unwrapped)
field type is a `List`. -/
def decoderListPfx (t : GType) : String :=
  match (match t with | .nonNull u => u | t => t) with
  | .list _ => "list "
  | _ => ""

/-- Embedding: `walkUnion`'s `union_name`: the union's name after the
NonNull/List/NonNull unwrap, or the empty string when the unwrapped type is
not a union (the TypeScript variable keeps its "" initializer then). -/
def decoderUnionName (t : GType) : String :=
  match unwrap3 t with
  | .union n _ => n
  | _ => ""

mutual

/-- Embedding: `walkSelectionSet` from query-to-decoder.ts: produce the applicative
decoder expression for a selection set.  `seenFields` is the mutable array
TypeScript shares with fragment-spread expansions to drop duplicate field
names; it is threaded through and returned updated.  The result joins the
per-selection expressions (dropping empty ones) with `|> apply`. -/
def walkSelectionSet (sch : GraphQLSchema) (fmap : FragmentDefinitionMap) :
    Nat → GType → List Selection → List String →
    Except Err (String × List String)
  | 0, _, _, _ => .error .fuel
  | fuel + 1, scope, sels, seenFields => do
    let (exprs, seen) ← walkSelections sch fmap fuel scope sels [] seenFields
    .ok (String.intercalate "\n        |> apply "
      (exprs.filter (fun e => e.length > 0)), seen)

/-- The selection loop of the decoder-side `walkSelectionSet`.  A field
whose (alias-preferred, unsanitized) name was already seen is skipped; a
fragment spread expands its definition's selection set inline, sharing the
seen-name accumulator; an inline fragment throws. -/
def walkSelections (sch : GraphQLSchema) (fmap : FragmentDefinitionMap) :
    Nat → GType → List Selection → List String → List String →
    Except Err (List String × List String)
  | 0, _, _, _, _ => .error .fuel
  | _ + 1, _, [], exprs, seenFields => .ok (exprs, seenFields)
  | fuel + 1, scope, sel :: rest, exprs, seenFields =>
    match sel with
    | .field nm al oss =>
      let dedupName := match al with
        | some a => a
        | none => nm
      if seenFields.contains dedupName then
        walkSelections sch fmap fuel scope rest exprs seenFields
      else do
        let e ← walkField sch fmap fuel scope nm al oss
        walkSelections sch fmap fuel scope rest (exprs ++ [e])
          (seenFields ++ [dedupName])
    | .fragmentSpread nm =>
      match fmap.lookup nm with
      | none => .error (.msg ("TypeError: fragment not defined: " ++ nm))
      | some fd => do
        let (e, seen) ← walkSelectionSet sch fmap fuel scope fd.selectionSet seenFields
        walkSelections sch fmap fuel scope rest (exprs ++ [e]) seen
    | .inlineFragment _ _ => .error (.msg "Should not happen")

/-- Embedding: `walkField` from query-to-decoder.ts: the decoder expression for one
field, wrapping in `list`/`maybe` according to the field type's
List/NonNull structure, dispatching unions to `walkUnion`. -/
def walkField (sch : GraphQLSchema) (fmap : FragmentDefinitionMap) :
    Nat → GType → String → Option String → Option (List Selection) →
    Except Err String
  | 0, _, _, _, _ => .error .fuel
  | fuel + 1, scope, fname, al, oss =>
    match fieldTypeIn scope fname with
    | none => .error (.msg ("Unknown GraphQL field: " ++ fname))
    | some ftype =>
      let originalName := match al with
        | some a => a
        | none => fname
      let (isMaybe, t1) := match ftype with
        | .nonNull u => (false, u)
        | t => (true, t)
      let (pfx, t2) := match t1 with
        | .list u => ("list ", u)
        | t => ("", t)
      let t3 := match t2 with
        | .nonNull u => u
        | t => t
      if t3.isUnion then
        match oss with
        | none => .error (.msg "TypeError: union field without selection set")
        | some sels => walkUnion sch fmap fuel originalName ftype sels
      else
        match oss with
        | some sels => do
          let (sub, _) ← walkSelectionSet sch fmap fuel ftype sels []
          let fieldNames ← getSelectionSetFields fmap fuel sels
          let shape := recordShape fieldNames
          let left := "(field \"" ++ originalName ++ "\" \n"
          let right := "(map " ++ shape ++ " " ++ sub ++ "))"
          let right := if pfx.length > 0 then "(" ++ pfx ++ right ++ ")" else right
          let right := if isMaybe then "(" ++ "maybe " ++ right ++ ")" else right
          .ok (left ++ "        " ++ right)
        | none => do
          let decoder ← leafTypeToDecoder t3
          let right := "(field \"" ++ originalName ++ "\" (" ++ pfx ++ decoder ++ "))"
          let right := if isMaybe then "(maybe " ++ right ++ ")" else right
          .ok right

/-- Embedding: `walkUnion` from query-to-decoder.ts: the dispatch decoder for a
union-typed field — decode the `__typename` discriminator, then branch on
its literal value, with a final `fail` fallback for unmatched values. -/
def walkUnion (sch : GraphQLSchema) (fmap : FragmentDefinitionMap) :
    Nat → String → GType → List Selection → Except Err String
  | 0, _, _, _ => .error .fuel
  | fuel + 1, originalName, fieldType, sels => do
    let chunks ← walkUnionBranches sch fmap fuel (decoderUnionName fieldType) sels
    let decoder := "\n        (\\typename -> case typename of" ++
      String.join chunks ++
      "\n            _ -> fail \"Unexpected union type\")"
    let decoder := "((field \"__typename\" string) |> andThen " ++ decoder ++ ")"
    let decoder := if (decoderListPfx fieldType).length > 0 then
        "(" ++ decoderListPfx fieldType ++ decoder ++ ")"
      else decoder
    let decoder := if decoderIsMaybe fieldType then
        "(" ++ "maybe " ++ decoder ++ ")"
      else decoder
    .ok ("(field \"" ++ originalName ++ "\" " ++ decoder ++ ")")

/-- The selection loop of `walkUnion`: one decoder branch per inline
fragment or fragment spread (in selection order); a field selection other
than the `__typename` discriminator throws. -/
def walkUnionBranches (sch : GraphQLSchema) (fmap : FragmentDefinitionMap) :
    Nat → String → List Selection → Except Err (List String)
  | 0, _, _ => .error .fuel
  | _ + 1, _, [] => .ok []
  | fuel + 1, unionName, sel :: rest =>
    match sel with
    | .inlineFragment cond body =>
      match sch.typeMap.lookup cond with
      | none => .error (.msg ("Unknown type: " ++ cond))
      | some condType => do
        let (fieldsExpr, _) ← walkSelectionSet sch fmap fuel condType body []
        let fieldNames ← getSelectionSetFields fmap fuel body
        let ctor := QueryToElm.elmSafeName (unionName ++ "_" ++ cond)
        let right := "(map " ++ ctorShape ctor fieldNames ++ " " ++
          String.intercalate " " (fieldsExpr.splitOn "\n") ++ "\n)"
        let chunk := "\n            \"" ++ cond ++ "\" -> " ++ right
        let chunks ← walkUnionBranches sch fmap fuel unionName rest
        .ok (chunk :: chunks)
    | .field nm _ _ =>
      if nm == "__typename" then walkUnionBranches sch fmap fuel unionName rest
      else .error (.msg ("Unexpected field: " ++ nm))
    | .fragmentSpread nm =>
      match fmap.lookup nm with
      | none => .error (.msg ("TypeError: fragment not defined: " ++ nm))
      | some fd =>
        match sch.typeMap.lookup fd.typeCondition with
        | none => .error (.msg ("Unknown type: " ++ fd.typeCondition))
        | some condType => do
          let (fieldsExpr, _) ←
            walkSelectionSet sch fmap fuel condType fd.selectionSet []
          let fieldNames ← getSelectionSetFields fmap fuel fd.selectionSet
          let ctor := QueryToElm.elmSafeName (unionName ++ "_" ++ fd.typeCondition)
          let right := "(map " ++ ctorShape ctor fieldNames ++ " " ++
            String.intercalate " " (fieldsExpr.splitOn "\n") ++ "\n)"
          let chunk := "\n            \"" ++ fd.typeCondition ++ "\" -> " ++ right
          let chunks ← walkUnionBranches sch fmap fuel unionName rest
          .ok (chunk :: chunks)

end

/-- The operation branch of `decoderFor`/`walkDefinition` in
query-to-decoder.ts (`walkOperationDefinition` there): wrap the selection
set's decoder in `map ResultType`.  The variable-definition loop computes,
and discards, each variable's Elm type — kept because a failing `typeToElm`
aborts the decoder in TypeScript too. -/
def decoderForQuery (sch : GraphQLSchema) (fmap : FragmentDefinitionMap)
    (fuel : Nat) (def_ : OperationDefinition) : Except Err String :=
  if def_.operation == "query" || def_.operation == "mutation" then do
    let name := match def_.name with
      | some n => n
      | none => "AnonymousQuery"
    let resultType := upperFirst name
    let rootType ← match (if def_.operation == "query" then sch.queryType
        else sch.mutationType) with
      | some t => Except.ok t
      | none => Except.error (Err.msg ("GraphQL schema does not define " ++
          def_.operation))
    let (expr, _) ← walkSelectionSet sch fmap fuel rootType def_.selectionSet []
    let _ ← def_.variableDefinitions.mapM
      (fun vd => QueryToElm.typeToElm vd.type false)
    .ok ("map " ++ resultType ++ " " ++ expr)
  else .error (.msg "unsupported operation")

end QueryToDecoder

namespace QueryToElm

/-- Embedding: `buildFragmentDefinitionMap`: collect every `FragmentDefinition` of the
document into the closure-level fragment map. -/
def buildFragmentDefinitionMap (doc : Document) : FragmentDefinitionMap :=
  doc.foldl (fun m d =>
    match d with
    | .frag f => insertSeen m f.name f
    | .op _ => m) []

mutual

/-- The document traversal of `collectFragments`: record, in visit order,
the name of every `FragmentSpread` node (the TypeScript version stores the
fragment map's entry for the name; only the key sequence is observable). -/
def collectSpreadsSels (sels : List Selection) (acc : List String) :
    List String :=
  match sels with
  | [] => acc
  | sel :: rest => collectSpreadsSels rest (collectSpreadsSel sel acc)

/-- One selection of `collectSpreadsSels`. -/
def collectSpreadsSel (sel : Selection) (acc : List String) : List String :=
  match sel with
  | .field _ _ oss =>
    match oss with
    | some body => collectSpreadsSels body acc
    | none => acc
  | .fragmentSpread nm => addSeenName acc nm
  | .inlineFragment _ body => collectSpreadsSels body acc

end

/-- Embedding: `collectFragments` from query-to-elm.ts: despite its `def` parameter it
visits the whole document. -/
def collectFragments (doc : Document) (acc : List String) : List String :=
  doc.foldl (fun a d => collectSpreadsSels d.selections a) acc

/-- Embedding: `queryFragments` from query-to-elm.ts: the transitive closure of the
fragments spread from a selection set, recursing through each spread
fragment's own selection set (unbounded in TypeScript, hence fuel). -/
def queryFragments (fmap : FragmentDefinitionMap) :
    Nat → List Selection → List (String × FragmentDefinition) →
    Except Err (List (String × FragmentDefinition))
  | 0, _, _ => .error .fuel
  | _ + 1, [], acc => .ok acc
  | fuel + 1, sel :: rest, acc =>
    match sel with
    | .field _ _ oss => do
      let acc ← queryFragments fmap fuel (oss.getD []) acc
      queryFragments fmap fuel rest acc
    | .inlineFragment _ body => do
      let acc ← queryFragments fmap fuel body acc
      queryFragments fmap fuel rest acc
    | .fragmentSpread nm =>
      match fmap.lookup nm with
      | none => .error (.msg ("TypeError: fragment not defined: " ++ nm))
      | some fd => do
        let acc ← queryFragments fmap fuel fd.selectionSet (insertSeen acc nm fd)
        queryFragments fmap fuel rest acc

mutual

/-- Embedding: `collectEnumsForType` from query-to-elm.ts: record every enum reachable
through List/NonNull wrappers and (guarded by the seen-type-name set)
through object/interface/input-object fields. -/
def collectEnumsForType (type : GType) (seen : GraphQLEnumMap)
    (seenTypes : List String) : GraphQLEnumMap × List String :=
  match type with
  | .enum n vs => (insertSeen seen n vs, seenTypes)
  | .list ofType => collectEnumsForType ofType seen seenTypes
  | .object n fs | .interface n fs | .inputObject n fs =>
    if seenTypes.contains n then (seen, seenTypes)
    else collectEnumsForTypeFields fs seen (seenTypes ++ [n])
  | .nonNull ofType => collectEnumsForType ofType seen seenTypes
  | _ => (seen, seenTypes)

/-- The field loop of `collectEnumsForType`'s composite case. -/
def collectEnumsForTypeFields (fields : List (String × GType))
    (seen : GraphQLEnumMap) (seenTypes : List String) :
    GraphQLEnumMap × List String :=
  match fields with
  | [] => (seen, seenTypes)
  | (_, ftype) :: rest =>
    let (seen, seenTypes) := collectEnumsForType ftype seen seenTypes
    collectEnumsForTypeFields rest seen seenTypes

end

/-- The scope type `TypeInfo` reports at the root of an operation. -/
def rootScope (sch : GraphQLSchema) (o : OperationDefinition) : Option GType :=
  if o.operation == "query" then sch.queryType
  else if o.operation == "mutation" then sch.mutationType
  else none

mutual

/-- The selection traversal of `collectEnums`: at every field node, collect
the enums of the field's resolved type (with a fresh seen-type guard, as in
the TypeScript default argument), then keep walking with the field's type
in scope.  Fragment spreads are not expanded (the AST visitor does not
follow them). -/
def collectEnumsSels (sch : GraphQLSchema) (scope : Option GType)
    (sels : List Selection) (acc : GraphQLEnumMap) : GraphQLEnumMap :=
  match sels with
  | [] => acc
  | sel :: rest => collectEnumsSels sch scope rest (collectEnumsSel sch scope sel acc)

/-- One selection of `collectEnumsSels`. -/
def collectEnumsSel (sch : GraphQLSchema) (scope : Option GType)
    (sel : Selection) (acc : GraphQLEnumMap) : GraphQLEnumMap :=
  match sel with
  | .field nm _ oss =>
    let ft := match scope with
      | some s => fieldTypeIn s nm
      | none => none
    let acc := match ft with
      | some t => (collectEnumsForType t acc []).1
      | none => acc
    (match oss with
     | some body => collectEnumsSels sch ft body acc
     | none => acc)
  | .fragmentSpread _ => acc
  | .inlineFragment cond body =>
    collectEnumsSels sch (sch.typeMap.lookup cond) body acc

end

/-- Embedding: `collectEnums` from query-to-elm.ts: despite its `def` parameter it
visits the whole document, operations from their root type and fragment
definitions from their type condition. -/
def collectEnums (sch : GraphQLSchema) (doc : Document)
    (acc : GraphQLEnumMap) : GraphQLEnumMap :=
  doc.foldl (fun a d =>
    match d with
    | .op o => collectEnumsSels sch (rootScope sch o) o.selectionSet a
    | .frag f =>
      collectEnumsSels sch (sch.typeMap.lookup f.typeCondition) f.selectionSet a) acc

/-- The record step of `collectUnions`: when the scope type of a non-empty
selection set unwraps (NonNull/List/NonNull) to a union, the union is
recorded — the TypeScript visitor performs this check at every visited
node, which fires on the first child of such a selection set. -/
def recordUnionAt (scope : Option GType) (sels : List Selection)
    (acc : GraphQLUnionMap) : GraphQLUnionMap :=
  match scope, sels with
  | some t, _ :: _ =>
    (match unwrap3 t with
     | .union n ms => insertSeen acc n ms
     | _ => acc)
  | _, _ => acc

mutual

/-- The selection loop of the `collectUnions` traversal. -/
def collectUnionsSelsGo (sch : GraphQLSchema) (scope : Option GType)
    (sels : List Selection) (acc : GraphQLUnionMap) : GraphQLUnionMap :=
  match sels with
  | [] => acc
  | sel :: rest =>
    collectUnionsSelsGo sch scope rest (collectUnionsSel sch scope sel acc)

/-- One selection of the `collectUnions` traversal: entering a nested
selection set first applies the record step for its scope, then loops. -/
def collectUnionsSel (sch : GraphQLSchema) (scope : Option GType)
    (sel : Selection) (acc : GraphQLUnionMap) : GraphQLUnionMap :=
  match sel with
  | .field nm _ oss =>
    match oss with
    | some body =>
      collectUnionsSelsGo sch (scope.bind (fun s => fieldTypeIn s nm)) body
        (recordUnionAt (scope.bind (fun s => fieldTypeIn s nm)) body acc)
    | none => acc
  | .fragmentSpread _ => acc
  | .inlineFragment cond body =>
    collectUnionsSelsGo sch (sch.typeMap.lookup cond) body
      (recordUnionAt (sch.typeMap.lookup cond) body acc)

end

/-- The selection-set traversal of `collectUnions`: record the scope's
union (when the selection set is non-empty), then walk the selections. -/
def collectUnionsSels (sch : GraphQLSchema) (scope : Option GType)
    (sels : List Selection) (acc : GraphQLUnionMap) : GraphQLUnionMap :=
  collectUnionsSelsGo sch scope sels (recordUnionAt scope sels acc)

/-- Embedding: `collectUnions` from query-to-elm.ts: whole-document traversal. -/
def collectUnions (sch : GraphQLSchema) (doc : Document)
    (acc : GraphQLUnionMap) : GraphQLUnionMap :=
  doc.foldl (fun a d =>
    match d with
    | .op o => collectUnionsSels sch (rootScope sch o) o.selectionSet a
    | .frag f =>
      collectUnionsSels sch (sch.typeMap.lookup f.typeCondition) f.selectionSet a) acc

/-- Embedding: `walkFragmentDefinition` from query-to-elm.ts: the two type aliases
generated for a fragment definition (`Name_ a` extensible record and its
closed instantiation `Name`). -/
def walkFragmentDefinition (sch : GraphQLSchema) (fmap : FragmentDefinitionMap)
    (fuel : Nat) (f : FragmentDefinition) : Except Err (List ElmDecl) := do
  let scope ← match sch.typeMap.lookup f.typeCondition with
    | some t => Except.ok t
    | none => Except.error (Err.msg ("Unknown type: " ++ f.typeCondition))
  let (fields, spreads, _) ← walkSelectionSet sch fmap fuel scope f.selectionSet
  let type0 := ElmType.record fields (some "a")
  let type1 := spreads.foldl
    (fun ty sp => ElmType.app (upperFirst sp ++ "_") [ty]) type0
  let resultType := upperFirst f.name
  .ok [ElmDecl.typeAliasDecl (resultType ++ "_") type1 ["a"],
       ElmDecl.typeAliasDecl resultType
         (.app (resultType ++ "_") [.record [] none]) []]

/-- The per-variable record of `walkOperationDefinition`'s `parameters`
array: Elm type, schema type, and whether a default value was declared. -/
structure Parameter where
  name : String
  type : ElmType
  schemaType : GType
  hasDefault : Bool

/-- The per-parameter encoder text of `walkOperationDefinition`: with a
declared default, a `case` expression encoding an unset value as
`Json.Encode.null`; otherwise `encoderForInputType` on `params.<name>`.
(In the default case TypeScript calls `encoderForInputType` without a
path, so the produced text contains the literal "undefined".) -/
def paramEncoder (p : Parameter) : Except Err String :=
  if p.hasDefault then do
    let e ← encoderForInputType p.schemaType true none
    .ok ("case params." ++ p.name ++ " of" ++
      "\n                            Just val -> " ++ e ++ " val" ++
      "\n                            Nothing -> Json.Encode.null")
  else
    encoderForInputType p.schemaType true (some ("params." ++ p.name))

/-- The `("name", encoder)` pair emitted into `graphQLParams` for one
declared variable. -/
def paramEntry (p : Parameter) : Except Err String := do
  let e ← paramEncoder p
  .ok ("(\"" ++ p.name ++ "\", " ++ e ++ ")")

/-- The body of the generated request function. -/
def requestFunctionBody (operation query name decodeFuncName methodParam : String)
    (entries : List String) : String :=
  "let graphQLQuery = \"\"\"" ++ collapseWs query ++ "\"\"\" in\n" ++
  "    let graphQLParams =\n" ++
  "            Json.Encode.object\n" ++
  "                [ " ++ String.intercalate "\n                , " entries ++ "\n" ++
  "                ]\n" ++
  "    in\n" ++
  "    " ++ operation ++ " " ++ methodParam ++ "endpointUrl graphQLQuery \"" ++
  name ++ "\" graphQLParams " ++ decodeFuncName

/-- Embedding: `walkOperationDefinition` from query-to-elm.ts: the result type alias,
request function, and decoder function of one operation, plus the two
names it pushes onto the module's expose list.  `gprint` stands for the
external graphql-js `print` (AST → query text). -/
def walkOperationDefinition (sch : GraphQLSchema) (fmap : FragmentDefinitionMap)
    (verb : String) (errorSpec : Bool) (gprint : Definition → String)
    (fuel : Nat) (o : OperationDefinition) :
    Except Err (List ElmDecl × List String) := do
  let rootType ← match rootScope sch o with
    | some t => Except.ok t
    | none => Except.error (Err.msg ("GraphQL schema does not define " ++
        o.operation ++ " \x27" ++
        (match o.name with | some n => n | none => "undefined") ++ "\x27"))
  if o.operation == "query" || o.operation == "mutation" then do
    let name := match o.name with
      | some n => n
      | none => "AnonymousQuery"
    let resultType := upperFirst name
    let responseType := if errorSpec then "(Response " ++ resultType ++ ")"
      else resultType
    let (fields, _spreads, _) ←
      walkSelectionSet sch fmap fuel rootType o.selectionSet
    let typeAlias := ElmDecl.typeAliasDecl resultType (.record fields none) []
    let parameters ← o.variableDefinitions.mapM (fun vd => do
      let ty ← typeToElm vd.type false
      pure (Parameter.mk vd.name ty vd.type vd.hasDefault))
    let funcName := lowerFirst name
    let qFragments ← queryFragments fmap fuel o.selectionSet []
    let query := (qFragments.foldl
      (fun acc p => acc ++ gprint (.frag p.2) ++ " ") "") ++ gprint (.op o)
    let decodeFuncName := lowerFirst resultType ++ "Decoder"
    let exposeAdds := [funcName, resultType]
    let elmParamsFields := parameters.map (fun p => (p.name, p.type))
    let elmParamsDecl := if elmParamsFields.length > 0 then
        [("params", ElmType.record elmParamsFields none)]
      else []
    let methodParam := if o.operation == "query" then "\"" ++ verb ++ "\" "
      else ""
    let entries ← parameters.mapM paramEntry
    let funcDecl := ElmDecl.functionDecl funcName elmParamsDecl
      (.name ("Http.Request " ++ responseType))
      (requestFunctionBody o.operation query name decodeFuncName methodParam entries)
    let resultTypeName := upperFirst resultType
    let decoderBody ← QueryToDecoder.decoderForQuery sch fmap fuel o
    let decoderDecl := ElmDecl.functionDecl decodeFuncName []
      (.name ("Decoder " ++ resultTypeName)) decoderBody
    .ok ([typeAlias, funcDecl, decoderDecl], exposeAdds)
  else .error (.msg "unsupported operation")

/-- The endpoint-URL constant pushed first by `walkQueryDocument`. -/
def endpointDecl (uri : String) : ElmDecl :=
  .functionDecl "endpointUrl" [] (.name "String") ("\"" ++ uri ++ "\"")

/-- The definition loop of `walkQueryDocument`: walk each top-level
definition (appending its declarations and expose names) and accumulate
the seen fragment/enum/union registries by re-collecting over the whole
document, exactly as the TypeScript loop does. -/
def processDefinitions (sch : GraphQLSchema) (fmap : FragmentDefinitionMap)
    (doc : Document) (verb : String) (errorSpec : Bool)
    (gprint : Definition → String) (fuel : Nat) :
    List Definition →
    (List ElmDecl × List String × List String × GraphQLEnumMap × GraphQLUnionMap) →
    Except Err
      (List ElmDecl × List String × List String × GraphQLEnumMap × GraphQLUnionMap)
  | [], acc => .ok acc
  | d :: rest, (decls, expose, seenF, seenE, seenU) => do
    let (newDecls, newExpose) ← match d with
      | .op o => walkOperationDefinition sch fmap verb errorSpec gprint fuel o
      | .frag f => do
        let ds ← walkFragmentDefinition sch fmap fuel f
        pure (ds, ([] : List String))
    processDefinitions sch fmap doc verb errorSpec gprint fuel rest
      (decls ++ newDecls, expose ++ newExpose,
       collectFragments doc seenF, collectEnums sch doc seenE,
       collectUnions sch doc seenU)

/-- Embedding: `walkQueryDocument` from query-to-elm.ts: push the endpoint constant,
walk every definition, then prepend/append the enum, decoder, and union
declarations from the seen registries, pushing the matching expose names. -/
def walkQueryDocument (sch : GraphQLSchema) (uri verb : String)
    (errorSpec : Bool) (gprint : Definition → String) (fuel : Nat)
    (doc : Document) : Except Err (List ElmDecl × List String) :=
  match processDefinitions sch (buildFragmentDefinitionMap doc) doc verb
      errorSpec gprint fuel doc ([endpointDecl uri], [], [], [], []) with
  | .error e => .error e
  | .ok (decls, expose, seenF, seenE, seenU) =>
    let expose := seenF.foldl
      (fun ex nm => ex ++ [upperFirst nm, upperFirst nm ++ "_"]) expose
    let (decls, expose) := seenE.foldl
      (fun (p : List ElmDecl × List String) e =>
        (walkEnum e.1 e.2 :: p.1 ++ [decoderForEnum e.1 e.2],
         p.2 ++ [e.1 ++ "(..)"]))
      (decls, expose)
    let (decls, expose) := seenU.foldl
      (fun (p : List ElmDecl × List String) u =>
        (walkUnion u.1 u.2 ++ p.1, p.2 ++ [u.1 ++ "(..)"]))
      (decls, expose)
    .ok (decls, expose)

/-- Embedding: `translateQuery` from query-to-elm.ts: the declaration and expose lists
for one document (`queryToElm` then serializes them into module text). -/
def translateQuery (uri : String) (doc : Document) (sch : GraphQLSchema)
    (verb : String) (errorSpec : Bool) (gprint : Definition → String)
    (fuel : Nat) : Except Err (List ElmDecl × List String) :=
  walkQueryDocument sch uri verb errorSpec gprint fuel doc

end QueryToElm

/-! ## Derived predicates used by the claim statements -/

/-- A selection set contains a field selection literally named
`__typename` (the flag `walkUnionSelectionSet` computes). -/
def hasTypenameField (sels : List Selection) : Bool :=
  sels.any (fun sel =>
    match sel with
    | .field nm _ _ => nm == "__typename"
    | _ => false)

/-- A selection set contains an inline fragment at its top level. -/
def containsInlineFragment (sels : List Selection) : Bool :=
  sels.any (fun sel =>
    match sel with
    | .inlineFragment _ _ => true
    | _ => false)

/-- The number of top-level inline-fragment or fragment-spread selections
(the branch-producing selections of a union selection set). -/
def countUnionBranches (sels : List Selection) : Nat :=
  sels.countP (fun sel =>
    match sel with
    | .inlineFragment _ _ => true
    | .fragmentSpread _ => true
    | _ => false)

/-- Key uniqueness of an insertion-ordered string-keyed map. -/
def keysNodup {α : Type} (m : List (String × α)) : Prop :=
  (m.map Prod.fst).Nodup

/-- The dispatch decoder text `walkUnion` assembles around its branch
chunks: first decode the `__typename` discriminator, then a `case` with the
given named branches and exactly one `_ -> fail` fallback, wrapped in the
field type's list/maybe decorations. -/
def assembledUnionDecoder (ft : GType) (origName : String)
    (chunks : List String) : String :=
  let decoder := "\n        (\\typename -> case typename of" ++
    String.join chunks ++
    "\n            _ -> fail \"Unexpected union type\")"
  let decoder := "((field \"__typename\" string) |> andThen " ++ decoder ++ ")"
  let decoder := if (QueryToDecoder.decoderListPfx ft).length > 0 then
      "(" ++ QueryToDecoder.decoderListPfx ft ++ decoder ++ ")"
    else decoder
  let decoder := if QueryToDecoder.decoderIsMaybe ft then
      "(" ++ "maybe " ++ decoder ++ ")"
    else decoder
  "(field \"" ++ origName ++ "\" " ++ decoder ++ ")"

/-- JSON values, as produced at runtime by the generated encoders. -/
inductive Json where
  | null
  | bool (b : Bool)
  | num (n : Int)
  | str (s : String)
  | arr (xs : List Json)
  | obj (fields : List (String × Json))

/-- Modelled from the spec: the runtime helper `maybeEncode` of the Elm-side
`GraphQL` support module that the generated code imports (part of this
repository but not under `src/`).  Per §4.3 of the spec, "Nullable
variables: absent/null value encodes as an explicit null". -/
def maybeEncode {α : Type} (f : α → Json) : Option α → Json
  | none => Json.null
  | some x => f x

/-! ## Concrete fixtures used by witnesses and counterexamples -/

/-- A `Character` object type with a non-null id and a nullable name. -/
def characterT : GType :=
  .object "Character" [("name", .scalar "String"), ("id", .nonNull (.scalar "String"))]

/-- Embedding: `fragment F on Character { name }`. -/
def fragF : FragmentDefinition :=
  { name := "F", typeCondition := "Character",
    selectionSet := [.field "name" none none] }

/-- Fragment map containing only `F`. -/
def fmapC : FragmentDefinitionMap := [("F", fragF)]

/-- A schema exposing `Character`. -/
def schC : GraphQLSchema :=
  { queryType := some (.object "Query" [("name", .scalar "String")])
    mutationType := none
    typeMap := [("Character", characterT)] }

/-- Embedding: `Dog` union member. -/
def dogT : GType := .object "Dog" [("barks", .nonNull (.scalar "Boolean"))]

/-- Embedding: `Cat` union member. -/
def catT : GType := .object "Cat" [("meows", .nonNull (.scalar "Boolean"))]

/-- Embedding: `union Pet = Dog | Cat`. -/
def petU : GType := .union "Pet" ["Dog", "Cat"]

/-- A schema with a union-typed root field `pet`. -/
def schU : GraphQLSchema :=
  { queryType := some (.object "Query" [("pet", petU)]), mutationType := none
    typeMap := [("Dog", dogT), ("Cat", catT), ("Pet", petU)] }

/-- A union selection with the discriminator and one branch per member. -/
def petSels : List Selection :=
  [.field "__typename" none none,
   .inlineFragment "Dog" [.field "barks" none none],
   .inlineFragment "Cat" [.field "meows" none none]]

/-- A schema whose root references the enum `Color` from two fields. -/
def schEnum : GraphQLSchema :=
  { queryType := some (.object "Query"
      [("color", .enum "Color" ["RED", "BLUE"]),
       ("mood", .enum "Color" ["RED", "BLUE"])])
    mutationType := none
    typeMap := [] }

/-- Embedding: `query Q { color mood }`. -/
def enumDoc : Document :=
  [.op { operation := "query", name := some "Q", variableDefinitions := []
         selectionSet := [.field "color" none none, .field "mood" none none] }]

/-- A schema whose root references two distinct enum types. -/
def schE2 : GraphQLSchema :=
  { queryType := some (.object "Query"
      [("a", .enum "Alpha" ["X"]), ("b", .enum "Beta" ["Y"])])
    mutationType := none
    typeMap := [] }

/-- Embedding: `query Q { a b }` referencing `Alpha` then `Beta`. -/
def e2doc : Document :=
  [.op { operation := "query", name := some "Q", variableDefinitions := []
         selectionSet := [.field "a" none none, .field "b" none none] }]

/-- An anonymous query `{ name }` against `schC`'s root. -/
def anonOp : OperationDefinition :=
  { operation := "query", name := none, variableDefinitions := []
    selectionSet := [.field "name" none none] }

/-- A document whose operation uses an inline fragment under a non-union
scope. -/
def c7doc : Document :=
  [.op { operation := "query", name := some "Q", variableDefinitions := []
         selectionSet := [.inlineFragment "Character" [.field "name" none none]] }]

/-- A parameter with a declared default, over a nullable Int variable. -/
def pC : QueryToElm.Parameter :=
  { name := "x", type := .app "Maybe" [.name "Int"],
    schemaType := .scalar "Int", hasDefault := true }

/-! ## Map and fold lemmas -/

theorem encoderForInputType_list (ofType : GType) (v : Option String) :
    QueryToElm.encoderSwitch (.list ofType) v = (do
      let inner ← QueryToElm.encoderForInputType ofType true (some "x")
      Except.ok ("(Json.Encode.list (List.map (\\x -> " ++ inner ++ ") " ++
        v.getD "undefined" ++ "))")) := by
  cases ofType <;> rfl

theorem encoderForInputType_fields (name : String) (ftype : GType)
    (rest : List (String × GType)) (value : String) :
    QueryToElm.encoderFields ((name, ftype) :: rest) value = (do
      let e ← QueryToElm.encoderForInputType ftype false (some (value ++ "." ++ name))
      let es ← QueryToElm.encoderFields rest value
      Except.ok (("(\"" ++ name ++ "\", " ++ e ++ ")") :: es)) := by
  cases ftype <;> rfl

theorem insertSeen_keys {α : Type} (m : List (String × α)) (k : String) (v : α) :
    (insertSeen m k v).map Prod.fst =
      if m.any (fun p => p.1 == k) then m.map Prod.fst
      else m.map Prod.fst ++ [k] := by
  unfold insertSeen
  split
  · simp only [List.map_map]
    apply List.map_congr_left
    intro p _
    by_cases h : p.1 = k
    · simp [Function.comp_apply, h]
    · simp [Function.comp_apply, h]
  · simp

theorem insertSeen_nodup {α : Type} {m : List (String × α)} (k : String) (v : α)
    (h : keysNodup m) : keysNodup (insertSeen m k v) := by
  unfold keysNodup
  rw [insertSeen_keys]
  split
  · exact h
  · rename_i hany
    refine List.Nodup.append h (List.nodup_singleton k) ?_
    intro a ha hk
    rcases List.mem_singleton.mp hk with rfl
    rcases List.mem_map.mp ha with ⟨p, hp, rfl⟩
    exact hany (List.any_eq_true.mpr ⟨p, hp, beq_self_eq_true _⟩)

theorem addSeenName_nodup {l : List String} (n : String) (h : l.Nodup) :
    (addSeenName l n).Nodup := by
  unfold addSeenName
  split
  · exact h
  · rename_i hmem
    refine List.Nodup.append h (List.nodup_singleton n) ?_
    intro a ha hn
    rcases List.mem_singleton.mp hn with rfl
    exact hmem (List.elem_eq_true_of_mem ha)

theorem foldl_addSeenName_nodup (xs : List String) :
    ∀ l : List String, l.Nodup → (xs.foldl addSeenName l).Nodup := by
  induction xs with
  | nil => intro l h; exact h
  | cons x xs ih =>
    intro l h
    exact ih (addSeenName l x) (addSeenName_nodup x h)

/-! ## C9 — idempotence of `elmSafeName` -/

/-- C9: the name-sanitization function `elmSafeName` is idempotent: none of
its remapped outputs is itself a key of the reserved-word table, so a
second application changes nothing. -/
theorem elmSafeName_idempotent (s : String) :
    QueryToElm.elmSafeName (QueryToElm.elmSafeName s) = QueryToElm.elmSafeName s := by
  by_cases h1 : s = "__typename"
  · subst h1; rfl
  by_cases h2 : s = "type"
  · subst h2; rfl
  by_cases h3 : s = "Task"
  · subst h3; rfl
  by_cases h4 : s = "List"
  · subst h4; rfl
  by_cases h5 : s = "Http"
  · subst h5; rfl
  by_cases h6 : s = "GraphQL"
  · subst h6; rfl
  have hs : QueryToElm.elmSafeName s = s := by
    unfold QueryToElm.elmSafeName
    rw [if_neg (by simpa using h1), if_neg (by simpa using h2),
        if_neg (by simpa using h3), if_neg (by simpa using h4),
        if_neg (by simpa using h5), if_neg (by simpa using h6)]
  rw [hs, hs]

/-! ## C1 — list/non-null nesting of `typeToElm` -/

/-- C1 counterexample: the claimed mapping is false on the code.  A bare
`List(Int)` maps to `List Int` — the list is not wrapped in `Maybe` and its
elements are not wrapped in `Maybe` — not to the claimed
`Maybe (List (Maybe Int))`; and `NonNull(List(Int))` maps to `List Int`,
not to a list of `Maybe Int` elements. -/
theorem typeToElm_nesting_counterexample :
    QueryToElm.typeToElm (.list (.scalar "Int")) false =
      .ok (.app "List" [.name "Int"]) ∧
    QueryToElm.typeToElm (.nonNull (.list (.scalar "Int"))) false =
      .ok (.app "List" [.name "Int"]) ∧
    (ElmType.app "List" [.name "Int"] ≠
      ElmType.app "Maybe" [.app "List" [.app "Maybe" [.name "Int"]]]) ∧
    (ElmType.app "List" [.name "Int"] ≠
      ElmType.app "List" [.app "Maybe" [.name "Int"]]) := by
  refine ⟨rfl, rfl, ?_, ?_⟩ <;> simp

/-- C1 amended: `typeToElm` maps `NonNull(T)` to `typeToElm T` without the
`Maybe` wrapper, and maps every `List(T)` to `List (typeToElm T nonNull)` —
the element is always mapped in non-null mode and the list itself is never
wrapped in `Maybe`, so `List(NonNull(Int))`, `NonNull(List(Int))` and bare
`List(Int)` all map to `List Int`. -/
theorem typeToElm_nesting (t : GType) (b : Bool) :
    QueryToElm.typeToElm (.nonNull t) b = QueryToElm.typeToElm t true ∧
    QueryToElm.typeToElm (.list t) b =
      (QueryToElm.typeToElm t true).map (fun e => .app "List" [e]) ∧
    QueryToElm.typeToElm (.list (.nonNull (.scalar "Int"))) false =
      .ok (.app "List" [.name "Int"]) ∧
    QueryToElm.typeToElm (.nonNull (.list (.scalar "Int"))) false =
      .ok (.app "List" [.name "Int"]) ∧
    QueryToElm.typeToElm (.list (.scalar "Int")) false =
      .ok (.app "List" [.name "Int"]) := by
  refine ⟨rfl, ?_, rfl, rfl, rfl⟩
  cases h : QueryToElm.typeToElm t true <;>
    simp [QueryToElm.typeToElm, h, Except.map, Bind.bind, Except.bind]

/-! ## C8 — determinism of the translation -/

/-- C8: translation is deterministic — for a fixed schema, document, module
inputs, verb and errorSpec flag (and printer and fuel), two runs of
`translateQuery` produce identical declaration and expose lists.  The
embedding is a pure function, as is the TypeScript core (no randomness,
time, or I/O), so the two runs are definitionally equal. -/
theorem translateQuery_deterministic (uri : String) (doc : Document)
    (sch : GraphQLSchema) (verb : String) (errorSpec : Bool)
    (gprint : Definition → String) (fuel : Nat) :
    QueryToElm.translateQuery uri doc sch verb errorSpec gprint fuel =
      QueryToElm.translateQuery uri doc sch verb errorSpec gprint fuel := rfl

/-! ## C6 — unrecognized scalars fall back to String -/

/-- C6: every scalar whose name is not Int, Float, or Boolean — ID,
DateTime, String, or any unrecognized name — maps to `Named String`
(`Maybe String` when nullable), decodes with the `string` decoder, and
encodes with `Json.Encode.string`; none of these paths raises an error. -/
theorem scalar_fallback (n : String) (b : Bool) (p : String)
    (h : ¬(n = "Int" ∨ n = "Float" ∨ n = "Boolean")) :
    QueryToElm.typeToElm (.scalar n) true = .ok (.name "String") ∧
    QueryToElm.typeToElm (.scalar n) false = .ok (.app "Maybe" [.name "String"]) ∧
    QueryToDecoder.leafTypeToDecoder (.scalar n) = .ok "string" ∧
    QueryToDecoder.leafTypeToDecoder (.nonNull (.scalar n)) = .ok "string" ∧
    QueryToElm.encoderForInputType (.nonNull (.scalar n)) b (some p) =
      .ok ("Json.Encode.string " ++ p) ∧
    QueryToElm.encoderForInputType (.scalar n) b (some p) =
      .ok ("(maybeEncode (\\o -> Json.Encode.string o) " ++ p ++ ")") := by
  push_neg at h
  obtain ⟨e1, e2, e3⟩ := h
  have hInt : (n == "Int") = false := by simpa using e1
  have hFloat : (n == "Float") = false := by simpa using e2
  have hBool : (n == "Boolean") = false := by simpa using e3
  have hswitch : ∀ v : Option String,
      QueryToElm.encoderSwitch (.scalar n) v =
        .ok ("Json.Encode.string " ++ v.getD "undefined") := by
    intro v
    simp only [QueryToElm.encoderSwitch, hInt, hFloat, hBool,
      Bool.false_eq_true, if_false]
    split_ifs <;> rfl
  refine ⟨?_, ?_, ?_, ?_, ?_, ?_⟩
  · simp only [QueryToElm.typeToElm, hInt, hFloat, hBool,
      Bool.false_eq_true, if_false]
    split_ifs <;> rfl
  · simp only [QueryToElm.typeToElm, hInt, hFloat, hBool,
      Bool.false_eq_true, if_false]
    split_ifs <;> rfl
  · simp only [QueryToDecoder.leafTypeToDecoder, hInt, hFloat, hBool,
      Bool.false_eq_true, if_false]
    split_ifs <;> rfl
  · simp only [QueryToDecoder.leafTypeToDecoder, hInt, hFloat, hBool,
      Bool.false_eq_true, if_false]
    split_ifs <;> rfl
  · simpa only [QueryToElm.encoderForInputType] using hswitch (some p)
  · simp only [QueryToElm.encoderForInputType, hswitch (some "o"),
      Bind.bind, Except.bind, Option.getD]
    rfl

/-- Witness for C6 at the concrete scalar name "DateTime". -/
theorem scalar_fallback_witness :
    QueryToElm.typeToElm (.scalar "DateTime") true = .ok (.name "String") ∧
    QueryToElm.typeToElm (.scalar "DateTime") false =
      .ok (.app "Maybe" [.name "String"]) ∧
    QueryToDecoder.leafTypeToDecoder (.scalar "DateTime") = .ok "string" ∧
    QueryToDecoder.leafTypeToDecoder (.nonNull (.scalar "DateTime")) = .ok "string" ∧
    QueryToElm.encoderForInputType (.nonNull (.scalar "DateTime")) true
      (some "params.x") = .ok ("Json.Encode.string " ++ "params.x") ∧
    QueryToElm.encoderForInputType (.scalar "DateTime") true (some "params.x") =
      .ok ("(maybeEncode (\\o -> Json.Encode.string o) " ++ "params.x" ++ ")") :=
  scalar_fallback "DateTime" true "params.x" (by decide)

/-! ## C5 — nullable variables encode as explicit null -/

theorem mapM_paramEntry_length (ps : List QueryToElm.Parameter) :
    ∀ es : List String, ps.mapM QueryToElm.paramEntry = .ok es →
      es.length = ps.length := by
  induction ps with
  | nil =>
    intro es h
    simp only [List.mapM_nil, pure, Except.pure] at h
    cases h
    rfl
  | cons p ps ih =>
    intro es h
    simp only [List.mapM_cons, Bind.bind, Except.bind, pure, Except.pure] at h
    cases he : QueryToElm.paramEntry p with
    | error e => rw [he] at h; cases h
    | ok e =>
      rw [he] at h
      cases hm : ps.mapM QueryToElm.paramEntry with
      | error e2 => rw [hm] at h; cases h
      | ok es2 =>
        rw [hm] at h
        cases h
        simp [ih es2 hm]

/-- C5: a nullable variable's encoder is the `maybeEncode` wrapper, whose
(spec-modelled) runtime meaning sends an absent value to explicit JSON
null; and a variable declared with a default value is encoded by a `case`
whose `Nothing` arm emits `Json.Encode.null`, while its key still appears —
`mapM` emits one `(name, encoder)` entry per declared variable, omitting
none. -/
theorem nullable_variable_encodes_null :
    (∀ (t : GType) (b : Bool) (path : Option String), t.isNonNull = false →
      QueryToElm.encoderForInputType t b path =
        (QueryToElm.encoderSwitch t (some "o")).map (fun e =>
          "(maybeEncode (\\o -> " ++ e ++ ") " ++ path.getD "undefined" ++ ")")) ∧
    (∀ f : Json → Json, maybeEncode f none = Json.null) ∧
    (∀ p : QueryToElm.Parameter, p.hasDefault = true → ∀ s : String,
      QueryToElm.paramEncoder p = .ok s →
      ∃ e, s = "case params." ++ p.name ++ " of" ++
        "\n                            Just val -> " ++ e ++ " val" ++
        "\n                            Nothing -> Json.Encode.null") ∧
    (∀ (ps : List QueryToElm.Parameter) (es : List String),
      ps.mapM QueryToElm.paramEntry = .ok es → es.length = ps.length) := by
  refine ⟨?_, fun _ => rfl, ?_, mapM_paramEntry_length⟩
  · intro t b path h
    unfold QueryToElm.encoderForInputType
    split
    · rename_i u
      simp [GType.isNonNull] at h
    · cases hs : QueryToElm.encoderSwitch t (some "o") <;>
        simp [hs, Except.map, Bind.bind, Except.bind]
  · intro p hp s h
    unfold QueryToElm.paramEncoder at h
    rw [if_pos hp] at h
    cases he : QueryToElm.encoderForInputType p.schemaType true none with
    | error e =>
      rw [he] at h
      simp [Bind.bind, Except.bind] at h
    | ok e =>
      rw [he] at h
      simp only [Bind.bind, Except.bind, Except.ok.injEq] at h
      exact ⟨e, h.symm⟩

/-- Witness for C5 at a nullable Int variable named `x` with a default. -/
theorem nullable_variable_encodes_null_witness :
    (QueryToElm.encoderForInputType (.scalar "Int") true (some "params.x") =
      (QueryToElm.encoderSwitch (.scalar "Int") (some "o")).map (fun e =>
        "(maybeEncode (\\o -> " ++ e ++ ") " ++
          (some "params.x").getD "undefined" ++ ")")) ∧
    maybeEncode (fun _ : Json => Json.null) (none : Option Json) = Json.null ∧
    (∃ e, ((QueryToElm.paramEncoder pC).toOption.getD "") =
      "case params." ++ pC.name ++ " of" ++
        "\n                            Just val -> " ++ e ++ " val" ++
        "\n                            Nothing -> Json.Encode.null") ∧
    (([pC].mapM QueryToElm.paramEntry).toOption.getD []).length = [pC].length :=
  ⟨nullable_variable_encodes_null.1 (.scalar "Int") true (some "params.x") rfl,
   nullable_variable_encodes_null.2.1 (fun _ => Json.null),
   nullable_variable_encodes_null.2.2.1 pC rfl _ (by rfl),
   nullable_variable_encodes_null.2.2.2 [pC] _ (by rfl)⟩

/-! ## C7 — inline fragments outside a union context -/

theorem walkSelections_inline_fails (sch : GraphQLSchema)
    (fmap : FragmentDefinitionMap) :
    ∀ (fuel : Nat) (scope : GType) (sels : List Selection),
      containsInlineFragment sels = true →
      exceptOk (QueryToElm.walkSelections sch fmap fuel scope sels) = false := by
  intro fuel
  induction fuel with
  | zero => intro scope sels _; rfl
  | succ n ih =>
    intro scope sels h
    cases sels with
    | nil => simp [containsInlineFragment] at h
    | cons sel rest =>
      cases sel with
      | field nm al oss =>
        have hr : containsInlineFragment rest = true := by
          simpa [containsInlineFragment] using h
        cases hf : QueryToElm.walkField sch fmap n scope nm al oss with
        | error e =>
          simp [QueryToElm.walkSelections, hf, exceptOk, Bind.bind, Except.bind]
        | ok f =>
          have hrec := ih scope rest hr
          cases hw : QueryToElm.walkSelections sch fmap n scope rest with
          | error e =>
            simp [QueryToElm.walkSelections, hf, hw, exceptOk, Bind.bind, Except.bind]
          | ok r =>
            rw [hw] at hrec
            simp [exceptOk] at hrec
      | fragmentSpread nm =>
        have hr : containsInlineFragment rest = true := by
          simpa [containsInlineFragment] using h
        have hrec := ih scope rest hr
        cases hw : QueryToElm.walkSelections sch fmap n scope rest with
        | error e =>
          simp [QueryToElm.walkSelections, hw, exceptOk, Bind.bind, Except.bind]
        | ok r =>
          rw [hw] at hrec
          simp [exceptOk] at hrec
      | inlineFragment cond body =>
        simp [QueryToElm.walkSelections, exceptOk]

/-- C7: when the scoped type of a selection set is not a union, a selection
set containing an inline fragment never translates (the walk fails), and
concretely a whole document with such a selection produces
`not implemented: InlineFragment on ...` and no declarations. -/
theorem inlineFragment_outside_union_fails :
    (∀ (sch : GraphQLSchema) (fmap : FragmentDefinitionMap) (fuel : Nat)
       (scope : GType) (sels : List Selection),
      (unwrap3 scope).isUnion = false →
      containsInlineFragment sels = true →
      exceptOk (QueryToElm.walkSelectionSet sch fmap fuel scope sels) = false) ∧
    QueryToElm.translateQuery "u" c7doc schC "GET" false (fun _ => "q") 100 =
      .error (.msg "not implemented: InlineFragment on Character") := by
  constructor
  · intro sch fmap fuel scope sels h1 h2
    cases fuel with
    | zero => rfl
    | succ n =>
      simp only [QueryToElm.walkSelectionSet, h1, Bool.false_eq_true, if_false]
      have hrec := walkSelections_inline_fails sch fmap n scope sels h2
      cases hw : QueryToElm.walkSelections sch fmap n scope sels with
      | error e => simp [hw, exceptOk, Bind.bind, Except.bind]
      | ok r =>
        rw [hw] at hrec
        simp [exceptOk] at hrec
  · rfl

/-- Witness for C7 at a concrete non-union scope and inline fragment. -/
theorem inlineFragment_outside_union_fails_witness :
    exceptOk (QueryToElm.walkSelectionSet schC fmapC 50 characterT
      [.inlineFragment "Character" [.field "name" none none]]) = false :=
  inlineFragment_outside_union_fails.1 schC fmapC 50 characterT
    [.inlineFragment "Character" [.field "name" none none]] rfl rfl

/-! ## C2 — union discriminator enforcement and dispatch shape -/

theorem walkUnionSels_flag (sch : GraphQLSchema) (fmap : FragmentDefinitionMap) :
    ∀ (fuel : Nat) (sels : List Selection) (tm : List (String × ElmType))
      (ht : Bool) (r : List (String × ElmType) × Bool),
      QueryToElm.walkUnionSels sch fmap fuel sels tm ht = .ok r →
      r.2 = (ht || hasTypenameField sels) := by
  intro fuel
  induction fuel with
  | zero => intro sels tm ht r h; cases h
  | succ n ih =>
    intro sels tm ht r h
    cases sels with
    | nil =>
      simp only [QueryToElm.walkUnionSels] at h
      cases h
      simp [hasTypenameField]
    | cons sel rest =>
      cases sel with
      | field nm al oss =>
        simp only [QueryToElm.walkUnionSels] at h
        have := ih rest tm (ht || (nm == "__typename")) r h
        simp [this, hasTypenameField, List.any_cons, Bool.or_assoc]
      | inlineFragment cond body =>
        simp only [QueryToElm.walkUnionSels] at h
        cases hl : sch.typeMap.lookup cond with
        | none => simp only [hl] at h; cases h
        | some condType =>
          simp only [hl, Bind.bind, Except.bind] at h
          cases hw : QueryToElm.walkSelectionSet sch fmap n condType body with
          | error e => simp only [hw] at h; cases h
          | ok res =>
            simp only [hw] at h
            have := ih rest _ ht r h
            simp [this, hasTypenameField, List.any_cons]
      | fragmentSpread nm =>
        simp only [QueryToElm.walkUnionSels] at h
        cases hf : fmap.lookup nm with
        | none => simp only [hf] at h; cases h
        | some fd =>
          simp only [hf] at h
          cases hl : sch.typeMap.lookup fd.typeCondition with
          | none => simp only [hl] at h; cases h
          | some condType =>
            simp only [hl, Bind.bind, Except.bind] at h
            cases hw : QueryToElm.walkSelectionSet sch fmap n condType
                fd.selectionSet with
            | error e => simp only [hw] at h; cases h
            | ok res =>
              simp only [hw] at h
              have := ih rest _ ht r h
              simp [this, hasTypenameField, List.any_cons]

theorem walkUnionSelectionSet_missing_typename (sch : GraphQLSchema)
    (fmap : FragmentDefinitionMap) :
    ∀ (fuel : Nat) (scope : GType) (sels : List Selection),
      hasTypenameField sels = false →
      exceptOk (QueryToElm.walkUnionSelectionSet sch fmap fuel scope sels) = false := by
  intro fuel scope sels h
  cases fuel with
  | zero => rfl
  | succ n =>
    simp only [QueryToElm.walkUnionSelectionSet]
    cases hw : QueryToElm.walkUnionSels sch fmap n sels [] false with
    | error e => simp [exceptOk, Bind.bind, Except.bind]
    | ok r =>
      have := walkUnionSels_flag sch fmap n sels [] false r hw
      rw [h] at this
      simp only [Bool.false_or] at this
      simp [exceptOk, Bind.bind, Except.bind, this]

theorem walkUnionBranches_length (sch : GraphQLSchema)
    (fmap : FragmentDefinitionMap) :
    ∀ (fuel : Nat) (un : String) (sels : List Selection) (chunks : List String),
      QueryToDecoder.walkUnionBranches sch fmap fuel un sels = .ok chunks →
      chunks.length = countUnionBranches sels := by
  intro fuel
  induction fuel with
  | zero => intro un sels chunks h; cases h
  | succ n ih =>
    intro un sels chunks h
    cases sels with
    | nil =>
      simp only [QueryToDecoder.walkUnionBranches] at h
      cases h
      simp [countUnionBranches]
    | cons sel rest =>
      cases sel with
      | inlineFragment cond body =>
        simp only [QueryToDecoder.walkUnionBranches] at h
        cases hl : sch.typeMap.lookup cond with
        | none => simp only [hl] at h; cases h
        | some condType =>
          simp only [hl, Bind.bind, Except.bind] at h
          cases hw : QueryToDecoder.walkSelectionSet sch fmap n condType body [] with
          | error e => simp only [hw] at h; cases h
          | ok res =>
            simp only [hw] at h
            cases hg : QueryToDecoder.getSelectionSetFields fmap n body with
            | error e => simp only [hg] at h; cases h
            | ok names =>
              simp only [hg] at h
              cases hb : QueryToDecoder.walkUnionBranches sch fmap n un rest with
              | error e => simp only [hb] at h; cases h
              | ok chunks2 =>
                simp only [hb, Except.ok.injEq] at h
                subst h
                simp [countUnionBranches, List.countP_cons, ih un rest chunks2 hb,
                  Nat.add_comm]
      | field nm al oss =>
        simp only [QueryToDecoder.walkUnionBranches] at h
        by_cases ht : (nm == "__typename") = true
        · rw [if_pos ht] at h
          have := ih un rest chunks h
          simp [this, countUnionBranches, List.countP_cons]
        · rw [if_neg ht] at h
          cases h
      | fragmentSpread nm =>
        simp only [QueryToDecoder.walkUnionBranches] at h
        cases hf : fmap.lookup nm with
        | none => simp only [hf] at h; cases h
        | some fd =>
          simp only [hf] at h
          cases hl : sch.typeMap.lookup fd.typeCondition with
          | none => simp only [hl] at h; cases h
          | some condType =>
            simp only [hl, Bind.bind, Except.bind] at h
            cases hw : QueryToDecoder.walkSelectionSet sch fmap n condType
                fd.selectionSet [] with
            | error e => simp only [hw] at h; cases h
            | ok res =>
              simp only [hw] at h
              cases hg : QueryToDecoder.getSelectionSetFields fmap n
                  fd.selectionSet with
              | error e => simp only [hg] at h; cases h
              | ok names =>
                simp only [hg] at h
                cases hb : QueryToDecoder.walkUnionBranches sch fmap n un rest with
                | error e => simp only [hb] at h; cases h
                | ok chunks2 =>
                  simp only [hb, Except.ok.injEq] at h
                  subst h
                  simp [countUnionBranches, List.countP_cons,
                    ih un rest chunks2 hb, Nat.add_comm]

/-- C2: a union-scoped selection set without the literal `__typename`
discriminator field never translates (the type-side walk fails — this is
where `walkUnionSelectionSet` throws); and when the decoder generator
succeeds on a union field, its decoder first decodes `__typename` and
dispatches through exactly one named branch per inline fragment or
fragment spread of the selection plus exactly one fallback failure branch
(`assembledUnionDecoder` appends the single `_ -> fail` arm). -/
theorem union_discriminator_dispatch :
    (∀ (sch : GraphQLSchema) (fmap : FragmentDefinitionMap) (fuel : Nat)
       (scope : GType) (sels : List Selection),
      (unwrap3 scope).isUnion = true →
      hasTypenameField sels = false →
      exceptOk (QueryToElm.walkSelectionSet sch fmap fuel scope sels) = false) ∧
    (∀ (sch : GraphQLSchema) (fmap : FragmentDefinitionMap) (fuel : Nat)
       (origName : String) (ft : GType) (sels : List Selection) (r : String),
      QueryToDecoder.walkUnion sch fmap (fuel + 1) origName ft sels = .ok r →
      ∃ chunks, QueryToDecoder.walkUnionBranches sch fmap fuel
          (QueryToDecoder.decoderUnionName ft) sels = .ok chunks ∧
        chunks.length = countUnionBranches sels ∧
        r = assembledUnionDecoder ft origName chunks) := by
  constructor
  · intro sch fmap fuel scope sels h1 h2
    cases fuel with
    | zero => rfl
    | succ n =>
      simp only [QueryToElm.walkSelectionSet, h1, if_true]
      have hrec := walkUnionSelectionSet_missing_typename sch fmap n scope sels h2
      cases hw : QueryToElm.walkUnionSelectionSet sch fmap n scope sels with
      | error e => simp [hw, exceptOk, Bind.bind, Except.bind]
      | ok ty =>
        rw [hw] at hrec
        simp [exceptOk] at hrec
  · intro sch fmap fuel origName ft sels r h
    simp only [QueryToDecoder.walkUnion] at h
    cases hb : QueryToDecoder.walkUnionBranches sch fmap fuel
        (QueryToDecoder.decoderUnionName ft) sels with
    | error e => rw [hb] at h; cases h
    | ok chunks =>
      rw [hb] at h
      simp only [Bind.bind, Except.bind, Except.ok.injEq] at h
      exact ⟨chunks, rfl,
        walkUnionBranches_length sch fmap fuel _ sels chunks hb, h.symm⟩

/-- Witness for C2: a `Pet` union selection without `__typename` fails, and
with the discriminator plus one branch per member the generated dispatch
decoder has exactly two named branches plus the fallback. -/
theorem union_discriminator_dispatch_witness :
    exceptOk (QueryToElm.walkSelectionSet schU [] 20 petU
      [.inlineFragment "Dog" [.field "barks" none none]]) = false ∧
    (∃ chunks, QueryToDecoder.walkUnionBranches schU [] 30
        (QueryToDecoder.decoderUnionName petU) petSels = .ok chunks ∧
      chunks.length = countUnionBranches petSels ∧
      ((QueryToDecoder.walkUnion schU [] (30 + 1) "pet" petU petSels).toOption.getD "")
        = assembledUnionDecoder petU "pet" chunks) :=
  ⟨union_discriminator_dispatch.1 schU [] 20 petU
      [.inlineFragment "Dog" [.field "barks" none none]] rfl rfl,
   union_discriminator_dispatch.2 schU [] 30 "pet" petU petSels _ (by rfl)⟩

/-! ## C3 — field dedup in type mapping vs decoder -/

theorem getSelectionSetFieldsGo_nodup (fmap : FragmentDefinitionMap) :
    ∀ (fuel : Nat) (sels : List Selection) (fields r : List String),
      fields.Nodup →
      QueryToDecoder.getSelectionSetFieldsGo fmap fuel sels fields = .ok r →
      r.Nodup := by
  intro fuel
  induction fuel with
  | zero => intro sels fields r _ h; cases h
  | succ n ih =>
    intro sels fields r hnd h
    cases sels with
    | nil =>
      simp only [QueryToDecoder.getSelectionSetFieldsGo] at h
      cases h
      exact hnd
    | cons sel rest =>
      cases sel with
      | field nm al oss =>
        simp only [QueryToDecoder.getSelectionSetFieldsGo] at h
        exact ih rest _ r (addSeenName_nodup _ hnd) h
      | fragmentSpread nm =>
        simp only [QueryToDecoder.getSelectionSetFieldsGo] at h
        cases hf : fmap.lookup nm with
        | none => simp only [hf] at h; cases h
        | some fd =>
          simp only [hf, Bind.bind, Except.bind] at h
          cases hg : QueryToDecoder.getSelectionSetFields fmap n fd.selectionSet with
          | error e => simp only [hg] at h; cases h
          | ok sub =>
            simp only [hg] at h
            exact ih rest _ r (foldl_addSeenName_nodup sub fields hnd) h
      | inlineFragment cond body =>
        simp only [QueryToDecoder.getSelectionSetFieldsGo] at h
        cases h

/-- C3 counterexample: duplicate direct selections of the same field are
dropped by the decoder generator but kept by the type-side selection walk,
so dedup does not happen "identically in the type mapping and the decoder"
as claimed: on `{ name name }` the generated record type carries two `name`
fields while the decoder records the name once. -/
theorem field_dedup_counterexample :
    (QueryToElm.walkSelectionSet schC fmapC 10 characterT
        [.field "name" none none, .field "name" none none]).map
      (fun r => r.1.map Prod.fst) = .ok ["name", "name"] ∧
    (QueryToDecoder.walkSelectionSet schC fmapC 10 characterT
        [.field "name" none none, .field "name" none none] []).map
      (fun r => r.2) = .ok ["name"] ∧
    (["name", "name"] : List String) ≠ ["name"] :=
  ⟨rfl, rfl, by simp⟩

/-- C3 amended: the decoder generator walks fields in first-encounter order
after fragment-spread expansion and drops later duplicates by name (its
field-name list is always duplicate-free), and on a selection that selects
`name` directly and also spreads a fragment selecting `name` both the
decoder and the generated record carry exactly one `name` field — but the
type-side walk reaches that state by not expanding spreads at all (it
records the spread as a type application), and it does not dedup duplicate
direct selections. -/
theorem field_dedup_decoder :
    (∀ (fmap : FragmentDefinitionMap) (fuel : Nat) (sels : List Selection)
       (names : List String),
      QueryToDecoder.getSelectionSetFields fmap fuel sels = .ok names →
      names.Nodup) ∧
    QueryToDecoder.walkSelectionSet schC fmapC 10 characterT
      [.field "name" none none, .fragmentSpread "F"] [] =
      .ok ("(maybe (field \"name\" (string)))", ["name"]) ∧
    QueryToElm.walkSelectionSet schC fmapC 10 characterT
      [.field "name" none none, .fragmentSpread "F"] =
      .ok ([("name", .app "Maybe" [.name "String"])], ["F"], none) := by
  refine ⟨?_, rfl, rfl⟩
  intro fmap fuel sels names h
  cases fuel with
  | zero => cases h
  | succ n =>
    simp only [QueryToDecoder.getSelectionSetFields] at h
    exact getSelectionSetFieldsGo_nodup fmap n sels [] names List.nodup_nil h

/-- Witness for C3's general dedup clause at the direct-plus-spread
selection. -/
theorem field_dedup_decoder_witness :
    ((QueryToDecoder.getSelectionSetFields fmapC 10
      [.field "name" none none, .fragmentSpread "F"]).toOption.getD []).Nodup :=
  field_dedup_decoder.1 fmapC 10 [.field "name" none none, .fragmentSpread "F"]
    _ (by rfl)

/-! ## C10 — anonymous operations use the fixed name AnonymousQuery -/

/-- C10: an unnamed query produces exactly the declarations
`type alias AnonymousQuery`, the request builder `anonymousQuery`, and the
decoder `anonymousQueryDecoder` (typed `Decoder AnonymousQuery`), and
exposes exactly `anonymousQuery` and `AnonymousQuery`. -/
theorem anonymous_operation_names (sch : GraphQLSchema)
    (fmap : FragmentDefinitionMap) (verb : String) (errorSpec : Bool)
    (gprint : Definition → String) (fuel : Nat)
    (varDefs : List VariableDefinition) (sels : List Selection)
    (r : List ElmDecl × List String)
    (h : QueryToElm.walkOperationDefinition sch fmap verb errorSpec gprint fuel
      { operation := "query", name := none, variableDefinitions := varDefs,
        selectionSet := sels } = .ok r) :
    r.2 = ["anonymousQuery", "AnonymousQuery"] ∧
    ∃ t ps rt body d,
      r.1 = [.typeAliasDecl "AnonymousQuery" t [],
             .functionDecl "anonymousQuery" ps rt body,
             .functionDecl "anonymousQueryDecoder" []
               (.name "Decoder AnonymousQuery") d] := by
  simp only [QueryToElm.walkOperationDefinition, QueryToElm.rootScope,
    beq_self_eq_true, if_true, Bool.true_or, Bind.bind, Except.bind] at h
  split at h
  · split at h
    · exact Except.noConfusion h
    · split at h
      · exact Except.noConfusion h
      · split at h
        · exact Except.noConfusion h
        · split at h
          · exact Except.noConfusion h
          · split at h
            · exact Except.noConfusion h
            · cases h
              exact ⟨rfl, _, _, _, _, _, rfl⟩
  · exact Except.noConfusion h

/-- Witness for C10 at the concrete anonymous query `{ name }`. -/
theorem anonymous_operation_names_witness :
    ((QueryToElm.walkOperationDefinition schC [] "GET" false (fun _ => "q") 100
        anonOp).toOption.getD ([], [])).2 = ["anonymousQuery", "AnonymousQuery"] ∧
    ∃ t ps rt body d,
      ((QueryToElm.walkOperationDefinition schC [] "GET" false (fun _ => "q") 100
          anonOp).toOption.getD ([], [])).1 =
        [.typeAliasDecl "AnonymousQuery" t [],
         .functionDecl "anonymousQuery" ps rt body,
         .functionDecl "anonymousQueryDecoder" []
           (.name "Decoder AnonymousQuery") d] :=
  anonymous_operation_names schC [] "GET" false (fun _ => "q") 100 []
    [.field "name" none none] _ (by rfl)

/-! ## C4 — enum/union declaration emission and placement -/

theorem foldl_append_chunks {α β : Type} (g : α → List β) :
    ∀ (l : List α) (acc : List β),
      l.foldl (fun ex x => ex ++ g x) acc = acc ++ (l.map g).flatten := by
  intro l
  induction l with
  | nil => intro acc; simp
  | cons x xs ih => intro acc; simp [ih, List.append_assoc]

theorem foldl_enum_pair {α β γ : Type} (we : α → β) (de : α → β) (en : α → γ) :
    ∀ (l : List α) (ds : List β) (ex : List γ),
      l.foldl (fun p e => (we e :: p.1 ++ [de e], p.2 ++ [en e])) (ds, ex) =
        (l.reverse.map we ++ ds ++ l.map de, ex ++ l.map en) := by
  intro l
  induction l with
  | nil => intro ds ex; simp
  | cons x xs ih =>
    intro ds ex
    simp only [List.foldl_cons, ih, List.reverse_cons, List.map_append,
      List.map_cons, List.map_nil, List.append_assoc]
    simp

theorem foldl_union_pair {α β γ : Type} (wu : α → List β) (en : α → γ) :
    ∀ (l : List α) (ds : List β) (ex : List γ),
      l.foldl (fun p u => (wu u ++ p.1, p.2 ++ [en u])) (ds, ex) =
        ((l.reverse.map wu).flatten ++ ds, ex ++ l.map en) := by
  intro l
  induction l with
  | nil => intro ds ex; simp
  | cons x xs ih =>
    intro ds ex
    simp only [List.foldl_cons, ih, List.reverse_cons, List.map_append,
      List.map_cons, List.map_nil, List.flatten_append, List.append_assoc]
    simp

/-- C4 counterexample: the claimed placement is false on the code.  For a
document referencing one enum from two fields, dedup does hold (one `Color`
type declaration and one `colorDecoder`), but the decoder is appended
after all per-definition declarations (`Q`, `q`, `qDecoder`), not placed
ahead of them; and with two enums the prepended enum type declarations
come out in reverse first-seen order (`Beta` before `Alpha`). -/
theorem enum_placement_counterexample :
    (QueryToElm.walkQueryDocument schEnum "http://x" "GET" false (fun _ => "q")
        100 enumDoc).map (fun r => r.1.map declName) =
      .ok ["Color", "endpointUrl", "Q", "q", "qDecoder", "colorDecoder"] ∧
    (["Color", "endpointUrl", "Q", "q", "qDecoder", "colorDecoder"] :
      List String)[5]? = some "colorDecoder" ∧
    (["Color", "endpointUrl", "Q", "q", "qDecoder", "colorDecoder"] :
      List String)[2]? = some "Q" ∧
    (QueryToElm.walkQueryDocument schE2 "http://x" "GET" false (fun _ => "q")
        100 e2doc).map (fun r => r.1.map declName) =
      .ok ["Beta", "Alpha", "endpointUrl", "Q", "q", "qDecoder",
           "alphaDecoder", "betaDecoder"] :=
  ⟨by rfl, rfl, rfl, by rfl⟩

theorem collectEnumsForType_nodup :
    ∀ (t : GType) (seen : GraphQLEnumMap) (st : List String),
      keysNodup seen → keysNodup (QueryToElm.collectEnumsForType t seen st).1 := by
  refine QueryToElm.collectEnumsForType.induct
    (fun t seen st => keysNodup seen →
      keysNodup (QueryToElm.collectEnumsForType t seen st).1)
    (fun fs seen st => keysNodup seen →
      keysNodup (QueryToElm.collectEnumsForTypeFields fs seen st).1)
    ?_ ?_ ?_ ?_ ?_ ?_ ?_ ?_ ?_ ?_ ?_ ?_
  · intro seen st n vs h
    simp only [QueryToElm.collectEnumsForType]
    exact insertSeen_nodup n vs h
  · intro seen st ofType ih h
    simp only [QueryToElm.collectEnumsForType]
    exact ih h
  · intro seen st n fs hc h
    simp only [QueryToElm.collectEnumsForType, hc, if_true]
    exact h
  · intro seen st n fs hc ih h
    simp only [QueryToElm.collectEnumsForType, if_neg hc]
    exact ih h
  · intro seen st n fs hc h
    simp only [QueryToElm.collectEnumsForType, hc, if_true]
    exact h
  · intro seen st n fs hc ih h
    simp only [QueryToElm.collectEnumsForType, if_neg hc]
    exact ih h
  · intro seen st n fs hc h
    simp only [QueryToElm.collectEnumsForType, hc, if_true]
    exact h
  · intro seen st n fs hc ih h
    simp only [QueryToElm.collectEnumsForType, if_neg hc]
    exact ih h
  · intro seen st ofType ih h
    simp only [QueryToElm.collectEnumsForType]
    exact ih h
  · intro t seen st h1 h2 h3 h4 h5 h6 h
    cases t with
    | scalar n => simpa [QueryToElm.collectEnumsForType] using h
    | union n ms => simpa [QueryToElm.collectEnumsForType] using h
    | enum n vs => exact absurd rfl (h1 n vs)
    | list u => exact absurd rfl (h2 u)
    | object n fs => exact absurd rfl (h3 n fs)
    | interface n fs => exact absurd rfl (h4 n fs)
    | inputObject n fs => exact absurd rfl (h5 n fs)
    | nonNull u => exact absurd rfl (h6 u)
  · intro seen st h
    simpa [QueryToElm.collectEnumsForTypeFields] using h
  · intro seen st fieldName fieldType rest seen1 st1 heq ih1 ih2 h
    simp only [QueryToElm.collectEnumsForTypeFields, heq]
    apply ih2
    have := ih1 h
    rw [heq] at this
    exact this

theorem collectEnumsStep_nodup (scope : Option GType) (nm : String)
    (acc : GraphQLEnumMap) (h : keysNodup acc) :
    keysNodup (match (match scope with
        | some s => fieldTypeIn s nm
        | none => none) with
      | some t => (QueryToElm.collectEnumsForType t acc []).1
      | none => acc) := by
  split
  · exact collectEnumsForType_nodup _ acc [] h
  · exact h

theorem collectEnumsSels_nodup (sch : GraphQLSchema) :
    ∀ (scope : Option GType) (sels : List Selection) (acc : GraphQLEnumMap),
      keysNodup acc → keysNodup (QueryToElm.collectEnumsSels sch scope sels acc) := by
  refine QueryToElm.collectEnumsSels.induct sch
    (fun scope sels acc => keysNodup acc →
      keysNodup (QueryToElm.collectEnumsSels sch scope sels acc))
    (fun scope sel acc => keysNodup acc →
      keysNodup (QueryToElm.collectEnumsSel sch scope sel acc))
    ?_ ?_ ?_ ?_ ?_ ?_
  · intro scope acc nm al ft acc1 sels ih h
    exact ih (collectEnumsStep_nodup scope nm acc h)
  · intro scope acc nm al h
    exact collectEnumsStep_nodup scope nm acc h
  · intro scope acc nm h
    exact h
  · intro scope acc cond body ih h
    exact ih h
  · intro scope acc h
    exact h
  · intro scope acc sel rest ih1 ih2 h
    exact ih2 (ih1 h)

theorem collectEnums_nodup (sch : GraphQLSchema) :
    ∀ (doc : Document) (acc : GraphQLEnumMap),
      keysNodup acc → keysNodup (QueryToElm.collectEnums sch doc acc) := by
  intro doc
  induction doc with
  | nil => intro acc h; exact h
  | cons d rest ih =>
    intro acc h
    simp only [QueryToElm.collectEnums, List.foldl_cons]
    have step : keysNodup (match d with
        | .op o => QueryToElm.collectEnumsSels sch (QueryToElm.rootScope sch o)
            o.selectionSet acc
        | .frag f => QueryToElm.collectEnumsSels sch
            (sch.typeMap.lookup f.typeCondition) f.selectionSet acc) := by
      cases d with
      | op o => exact collectEnumsSels_nodup sch _ _ acc h
      | frag f => exact collectEnumsSels_nodup sch _ _ acc h
    simpa [QueryToElm.collectEnums] using ih _ step

theorem recordUnionAt_nodup (scope : Option GType) (sels : List Selection)
    (acc : GraphQLUnionMap) (h : keysNodup acc) :
    keysNodup (QueryToElm.recordUnionAt scope sels acc) := by
  unfold QueryToElm.recordUnionAt
  split
  · split
    · exact insertSeen_nodup _ _ h
    · exact h
  · exact h

theorem collectUnionsSelsGo_nodup (sch : GraphQLSchema) :
    ∀ (scope : Option GType) (sels : List Selection) (acc : GraphQLUnionMap),
      keysNodup acc →
      keysNodup (QueryToElm.collectUnionsSelsGo sch scope sels acc) := by
  refine QueryToElm.collectUnionsSelsGo.induct sch
    (fun scope sels acc => keysNodup acc →
      keysNodup (QueryToElm.collectUnionsSelsGo sch scope sels acc))
    (fun scope sel acc => keysNodup acc →
      keysNodup (QueryToElm.collectUnionsSel sch scope sel acc))
    ?_ ?_ ?_ ?_ ?_ ?_
  · intro scope acc nm al sels ih h
    simp only [QueryToElm.collectUnionsSel]
    exact ih (recordUnionAt_nodup _ sels acc h)
  · intro scope acc nm al h
    simp only [QueryToElm.collectUnionsSel]
    exact h
  · intro scope acc nm h
    simp only [QueryToElm.collectUnionsSel]
    exact h
  · intro scope acc cond body ih h
    simp only [QueryToElm.collectUnionsSel]
    exact ih (recordUnionAt_nodup _ body acc h)
  · intro scope acc h
    simp only [QueryToElm.collectUnionsSelsGo]
    exact h
  · intro scope acc sel rest ih1 ih2 h
    simp only [QueryToElm.collectUnionsSelsGo]
    exact ih2 (ih1 h)

theorem collectUnions_nodup (sch : GraphQLSchema) :
    ∀ (doc : Document) (acc : GraphQLUnionMap),
      keysNodup acc → keysNodup (QueryToElm.collectUnions sch doc acc) := by
  intro doc
  induction doc with
  | nil => intro acc h; exact h
  | cons d rest ih =>
    intro acc h
    have step : keysNodup (match d with
        | .op o => QueryToElm.collectUnionsSels sch (QueryToElm.rootScope sch o)
            o.selectionSet acc
        | .frag f => QueryToElm.collectUnionsSels sch
            (sch.typeMap.lookup f.typeCondition) f.selectionSet acc) := by
      cases d with
      | op o =>
        exact collectUnionsSelsGo_nodup sch _ _ _
          (recordUnionAt_nodup _ _ acc h)
      | frag f =>
        exact collectUnionsSelsGo_nodup sch _ _ _
          (recordUnionAt_nodup _ _ acc h)
    simpa [QueryToElm.collectUnions] using ih _ step

theorem processDefinitions_nodup (sch : GraphQLSchema)
    (fmap : FragmentDefinitionMap) (doc : Document) (verb : String)
    (errorSpec : Bool) (gprint : Definition → String) (fuel : Nat) :
    ∀ (defs : List Definition)
      (acc : List ElmDecl × List String × List String × GraphQLEnumMap × GraphQLUnionMap)
      (r : List ElmDecl × List String × List String × GraphQLEnumMap × GraphQLUnionMap),
      keysNodup acc.2.2.2.1 → keysNodup acc.2.2.2.2 →
      QueryToElm.processDefinitions sch fmap doc verb errorSpec gprint fuel
        defs acc = .ok r →
      keysNodup r.2.2.2.1 ∧ keysNodup r.2.2.2.2 := by
  intro defs
  induction defs with
  | nil =>
    intro acc r hE hU h
    simp only [QueryToElm.processDefinitions] at h
    cases h
    exact ⟨hE, hU⟩
  | cons d rest ih =>
    intro acc r hE hU h
    obtain ⟨decls, expose, seenF, seenE, seenU⟩ := acc
    simp only [QueryToElm.processDefinitions, Bind.bind, Except.bind] at h
    cases d with
    | op o =>
      cases hw : QueryToElm.walkOperationDefinition sch fmap verb errorSpec
          gprint fuel o with
      | error e => simp only [hw] at h; cases h
      | ok p =>
        simp only [hw] at h
        exact ih _ r (collectEnums_nodup sch doc seenE hE)
          (collectUnions_nodup sch doc seenU hU) h
    | frag f =>
      cases hw : QueryToElm.walkFragmentDefinition sch fmap fuel f with
      | error e => simp only [hw] at h; cases h
      | ok ds =>
        simp only [hw] at h
        exact ih _ r (collectEnums_nodup sch doc seenE hE)
          (collectUnions_nodup sch doc seenU hU) h

/-- C4 amended: after all definitions are processed, the orchestrator
prepends the union type declarations (reverse first-seen order), then the
enum type declarations (reverse first-seen order) — ahead of the endpoint
constant and all per-definition declarations — while the enum decoders are
appended in first-seen order after all per-definition declarations; one
type declaration and one decoder are emitted per entry of the seen-enum
registry, whose keys are duplicate-free (so an enum referenced from two
fields yields exactly one pair), and likewise one type declaration per
first-seen union. -/
theorem enum_union_emission (sch : GraphQLSchema) (uri verb : String)
    (errorSpec : Bool) (gprint : Definition → String) (fuel : Nat)
    (doc : Document) (decls : List ElmDecl) (expose : List String)
    (h : QueryToElm.walkQueryDocument sch uri verb errorSpec gprint fuel doc =
      .ok (decls, expose)) :
    ∃ (defDecls : List ElmDecl) (defExpose : List String)
      (seenF : List String) (seenE : GraphQLEnumMap) (seenU : GraphQLUnionMap),
      QueryToElm.processDefinitions sch
        (QueryToElm.buildFragmentDefinitionMap doc) doc verb errorSpec gprint
        fuel doc ([QueryToElm.endpointDecl uri], [], [], [], []) =
        .ok (defDecls, defExpose, seenF, seenE, seenU) ∧
      decls =
        (seenU.reverse.map (fun u => QueryToElm.walkUnion u.1 u.2)).flatten ++
        seenE.reverse.map (fun e => QueryToElm.walkEnum e.1 e.2) ++
        defDecls ++
        seenE.map (fun e => QueryToElm.decoderForEnum e.1 e.2) ∧
      expose = defExpose ++
        (seenF.map (fun nm => [upperFirst nm, upperFirst nm ++ "_"])).flatten ++
        seenE.map (fun e => e.1 ++ "(..)") ++
        seenU.map (fun u => u.1 ++ "(..)") ∧
      keysNodup seenE ∧ keysNodup seenU := by
  unfold QueryToElm.walkQueryDocument at h
  split at h
  · exact Except.noConfusion h
  · rename_i d e sF sE sU heq
    refine ⟨d, e, sF, sE, sU, heq, ?_⟩
    have hnd := processDefinitions_nodup sch
      (QueryToElm.buildFragmentDefinitionMap doc) doc verb errorSpec gprint
      fuel doc _ _ (by simp [keysNodup]) (by simp [keysNodup]) heq
    simp only [foldl_enum_pair, foldl_union_pair, foldl_append_chunks] at h
    cases h
    refine ⟨by simp [List.append_assoc], by simp [List.append_assoc],
      hnd.1, hnd.2⟩

/-- Witness for C4 amended at the one-enum two-references document. -/
theorem enum_union_emission_witness :
    ∃ (defDecls : List ElmDecl) (defExpose : List String)
      (seenF : List String) (seenE : GraphQLEnumMap) (seenU : GraphQLUnionMap),
      QueryToElm.processDefinitions schEnum
        (QueryToElm.buildFragmentDefinitionMap enumDoc) enumDoc "GET" false
        (fun _ => "q") 100 enumDoc
        ([QueryToElm.endpointDecl "http://x"], [], [], [], []) =
        .ok (defDecls, defExpose, seenF, seenE, seenU) ∧
      (((QueryToElm.walkQueryDocument schEnum "http://x" "GET" false
          (fun _ => "q") 100 enumDoc).toOption.getD ([], [])).1 =
        (seenU.reverse.map (fun u => QueryToElm.walkUnion u.1 u.2)).flatten ++
        seenE.reverse.map (fun e => QueryToElm.walkEnum e.1 e.2) ++
        defDecls ++
        seenE.map (fun e => QueryToElm.decoderForEnum e.1 e.2)) ∧
      (((QueryToElm.walkQueryDocument schEnum "http://x" "GET" false
          (fun _ => "q") 100 enumDoc).toOption.getD ([], [])).2 =
        defExpose ++
        (seenF.map (fun nm => [upperFirst nm, upperFirst nm ++ "_"])).flatten ++
        seenE.map (fun e => e.1 ++ "(..)") ++
        seenU.map (fun u => u.1 ++ "(..)")) ∧
      keysNodup seenE ∧ keysNodup seenU :=
  enum_union_emission schEnum "http://x" "GET" false (fun _ => "q") 100
    enumDoc _ _ (by rfl)

end ElmGraphQL
